import Mathlib

/-!
Verification development for the `LieTheorySym` prolongation notebook
(`Prolong.ipynb`).  The notebook computes symbolic n-th prolongations of
infinitesimal vector fields following Olver's prolongation formula.

The Python source is shallowly embedded here:

* Python strings (symbol names) become `List Char`;
* sympy expressions become the deep syntax `Expr` with structural
  differentiation `diff` and evaluation `eval` into `ℤ`;
* Python crashes (IndexError, NameError-free paths, using `None` in an
  arithmetic context) are modelled with `Option`, `none` meaning the call
  raises;
* the imperative dedup loop of `njet` is translated step for step,
  including its frozen `range` bounds, the `k` bookkeeping and the two
  early-exit conditions.

Each claim theorem mentions the embedded functions and is stated over them.
-/

namespace LieProlong

/-- Symbol text: the model of a Python string (a list of characters). -/
abbrev Str := List Char

/-- Python `sorted(s)` on a string: the characters in nondecreasing code
order.  Any sorted permutation of a multiset of characters is unique, so
insertion sort agrees with CPython's sort on values. -/
def sortKey (s : Str) : Str := s.insertionSort (· ≤ ·)

/-- `jet(X,U)`: for each dependent symbol `U[i]` and each independent label
`X[j]`, the concatenation `U[i]+X[j]`, in that loop order. -/
def jet (X U : List Str) : List Str :=
  U.flatMap (fun s => X.map (fun x => s ++ x))

/-- In `njet`, `J = U` followed by `J = jet(X,J)` executed `n` times. -/
def jetIter (X U : List Str) : Nat → List Str
  | 0 => U
  | n+1 => jet X (jetIter X U n)

/-- The inner dedup scan of `njet`: `for j in range(i+1,len(J)-1)` with the
comparison `sorted(J[i]) == sorted(J[k])`, `J.remove(J[k])` (Python removes
the first occurrence of the value) and the `k` bookkeeping that leaves `k`
unchanged after a removal.  `steps` is the iteration count of the frozen
`range`; the out-of-range branch models an (unreachable) IndexError by
returning the list unchanged. -/
def njetInner (i : Nat) (J : List Str) (k : Nat) : Nat → List Str
  | 0 => J
  | steps+1 =>
    match J.get? i, J.get? k with
    | some pv, some kv =>
      if sortKey kv = sortKey pv then njetInner i (J.erase kv) k steps
      else njetInner i J (k+1) steps
    | _, _ => J

/-- The outer dedup loop of `njet`: `for i in range(len(J))` (the range is
frozen at the initial length, modelled by `fuel`) with the terminal check
`if i >= len(J)-2: break` evaluated after each scan. -/
def njetOuter : Nat → List Str → Nat → List Str
  | 0, J, _ => J
  | fuel+1, J, i =>
    let Jn := njetInner i J (i+1) (J.length - i - 2)
    if Jn.length ≤ i + 2 then Jn else njetOuter fuel Jn (i+1)

/-- `njet(X,U,n)`: build `jet` iterated `n` times from `U`, then run the
pairwise dedup loop. -/
def njet (X U : List Str) (n : Nat) : List Str :=
  let J := jetIter X U n
  njetOuter J.length J 0

/-- `fulljet(X,U,n) = X + U + njet(X,U,1) + ... + njet(X,U,n)`. -/
def fulljet (X U : List Str) (n : Nat) : List Str :=
  X ++ U ++ (List.range n).flatMap (fun i => njet X U (i+1))

/-- `uJalpha(u_div,x_var,X,U)`: search `njet(X,U,len(str(u_div)))` for the
first symbol whose sorted characters equal those of `str(u_div)+str(x_var)`;
falling through the loop returns Python `None`, modelled as `none`. -/
def uJalpha (u x : Str) (X U : List Str) : Option Str :=
  (njet X U u.length).find? (fun s => sortKey (u ++ x) = sortKey s)

/-- `divUJi(X,U,u,J,i)`: resolve `u` through every entry of `J` and then
through `i`.  An out-of-range index or a `None` from `uJalpha` (which the
Python caller would crash on) is `none`. -/
def divUJi (X U : List Str) (u : Str) (J : List Nat) (i : Nat) : Option Str := do
  let f ← J.foldlM (fun f j => do uJalpha f (← X.get? j) X U) u
  uJalpha f (← X.get? i) X U

/-- Deep syntax for the sympy expressions the notebook builds: integer
constants, named symbols, sums, differences and products. -/
inductive Expr where
  | const : Int → Expr
  | sym : Str → Expr
  | add : Expr → Expr → Expr
  | sub : Expr → Expr → Expr
  | mul : Expr → Expr → Expr
deriving DecidableEq, Repr

/-- Structural symbolic differentiation with respect to a named symbol, the
`diff(expr, symbol)` capability the notebook takes from sympy. -/
def diff : Expr → Str → Expr
  | .const _, _ => .const 0
  | .sym t, s => if t = s then .const 1 else .const 0
  | .add a b, s => .add (diff a s) (diff b s)
  | .sub a b, s => .sub (diff a s) (diff b s)
  | .mul a b, s => .add (.mul (diff a s) b) (.mul a (diff b s))

/-- Evaluation of an expression at an integer assignment of the symbols.
Two expressions are "algebraically equal" when they evaluate equally at
every assignment. -/
def eval (ρ : Str → Int) : Expr → Int
  | .const n => n
  | .sym s => ρ s
  | .add a b => eval ρ a + eval ρ b
  | .sub a b => eval ρ a - eval ρ b
  | .mul a b => eval ρ a * eval ρ b

/-- Algebraic equality of expressions: equal values under every assignment. -/
def algEq (a b : Expr) : Prop := ∀ ρ : Str → Int, eval ρ a = eval ρ b

/-- `totDiv(X,U,P,i,n)` (the executed definition, which uses `fulljet`):
`diff(P,X[i])` plus, for every `s` in `fulljet(X,U,n)` with `s not in X`,
the term `diff(P,s)*uJalpha(s,X[i],X,U)`.  A `None` from `uJalpha` makes the
sympy multiplication raise, modelled as `none`. -/
def totDiv (X U : List Str) (P : Expr) (i n : Nat) : Option Expr := do
  let xi ← X.get? i
  let J := (fulljet X U n).filter (fun v => ¬ v ∈ X)
  J.foldlM
    (fun expr s => do
      let r ← uJalpha s xi X U
      pure (.add expr (.mul (diff P s) (.sym r))))
    (diff P xi)

/-- `TotDiv(X,U,P,n,J)` (the consolidated cell): apply `totDiv` with index
`J[0]` and ceiling `n`, then fold the remaining indices of `J` left to
right with the same ceiling.  `J[0]` on an empty `J` raises, hence `none`. -/
def TotDiv (X U : List Str) (P : Expr) (n : Nat) (J : List Nat) : Option Expr :=
  match J with
  | [] => none
  | j :: rest =>
    rest.foldl (fun acc i => acc.bind (fun e => totDiv X U e i n)) (totDiv X U P j n)

/-- `TotDiv(X,U,P,J)` (the earlier tutorial cell): same composition but the
ceiling is computed internally as `len(J)+1` for every call. -/
def TotDivEarly (X U : List Str) (P : Expr) (J : List Nat) : Option Expr :=
  match J with
  | [] => none
  | j :: rest =>
    rest.foldl (fun acc i => acc.bind (fun e => totDiv X U e i (J.length + 1)))
      (totDiv X U P j (J.length + 1))

/-- `phiAlpha(X,U,v,J,q)`: the prolongation coefficient
`D_J(phi_q - sum_i xi_i u_i) + sum_i xi_i u_{J,i}`.  Note the `TotDiv` call
passes `len(J)` as the order ceiling (the consolidated five-argument
`TotDiv`). -/
def phiAlpha (X U : List Str) (v : List Expr) (J : List Nat) (q : Nat) : Option Expr := do
  let phi := v.drop X.length
  let xi := v.take X.length
  let a ← (List.range X.length).foldlM
    (fun a i => do
      let xii ← xi.get? i
      let uq ← U.get? q
      let xiv ← X.get? i
      let r ← uJalpha uq xiv X U
      pure (.add a (.mul xii (.sym r))))
    (Expr.const 0)
  let b ← (List.range X.length).foldlM
    (fun b i => do
      let xii ← xi.get? i
      let uq ← U.get? q
      let f ← divUJi X U uq J i
      pure (.add b (.mul xii (.sym f))))
    (Expr.const 0)
  let phiq ← phi.get? q
  let c ← TotDiv X U (.sub phiq a) J.length J
  pure (.add c b)

/-- `combinations_with_replacement(range(p), k)` starting from position
`lo`: all nondecreasing index sequences, in the lexicographic order
itertools produces. -/
def cwrAux (p : Nat) (lo : Nat) : Nat → List (List Nat)
  | 0 => [[]]
  | k+1 => ((List.range p).drop lo).flatMap (fun j => (cwrAux p j k).map (j :: ·))

/-- `combinations_with_replacement(range(p), k)` as a list of lists. -/
def cwr (p k : Nat) : List (List Nat) := cwrAux p 0 k

/-- `diffOrd(p,n)`: the multi-index lists of orders `1..n`. -/
def diffOrd (p n : Nat) : List (List (List Nat)) :=
  (List.range n).map (fun i => cwr p (i+1))

/-- `Prolong(X,U,v,n)`: `a = v` (an alias of the caller's list), then for
`i < n`, `j < len(X)`, `q < len(U)` append `phiAlpha(X,U,a,J[i][j],q)` to
`a`.  Since `a` aliases `v`, `phiAlpha` receives the grown list, and the
returned value is the caller's own list object. -/
def Prolong (X U : List Str) (v : List Expr) (n : Nat) : Option (List Expr) :=
  let Jl := diffOrd X.length n
  (List.range n).foldlM
    (fun a i =>
      (List.range X.length).foldlM
        (fun a j =>
          (List.range U.length).foldlM
            (fun a q => do
              let Ji ← Jl.get? i
              let Jij ← Ji.get? j
              let c ← phiAlpha X U a Jij q
              pure (a ++ [c]))
            a)
        a)
    v

/-- The caller's list after `Prolong(X,U,v,n)` returns.  `a = v` makes `a`
an alias of the caller's list object and `a.append` mutates it in place, so
the caller's `v` afterwards is exactly the list `Prolong` returns. -/
def ProlongCallerV (X U : List Str) (v : List Expr) (n : Nat) : Option (List Expr) :=
  Prolong X U v n

/-- The independent-variable labels `['x','y']`. -/
def Xxy : List Str := [['x'], ['y']]

/-- The independent-variable label list `['x']`. -/
def Xx : List Str := [['x']]

/-- The dependent-variable label list `['u']`. -/
def Uu : List Str := [['u']]

/-- The expression `x*u*uxy` from the `totDiv` demonstration. -/
def xuuxy : Expr := .mul (.mul (.sym ['x']) (.sym ['u'])) (.sym ['u','x','y'])

/-- The expected value `u*uxxy*x + u*uxy + ux*uxy*x` of
`totDiv(['x','y'],['u'],'x*u*uxy',0,2)`. -/
def c4target : Expr :=
  .add (.add (.mul (.mul (.sym ['u']) (.sym ['u','x','x','y'])) (.sym ['x']))
    (.mul (.sym ['u']) (.sym ['u','x','y'])))
    (.mul (.mul (.sym ['u','x']) (.sym ['u','x','y'])) (.sym ['x']))

/-- The translation vector field `v = [1, 0]` for `X=['x']`, `U=['u']`. -/
def vTrans : List Expr := [.const 1, .const 0]

/-- An assignment sending the symbol `ux` to `1` and every other symbol to
`0`; it separates the code's total derivative of `u` from the spec's. -/
def rhoUx : Str → Int := fun s => if s = ['u','x'] then 1 else 0

/-- The total-derivative sum as the spec describes it: the chain-rule terms
range over the order-`1..n` jet coordinates only (the spec's words
"every jet symbol s appearing among the order-1..order_ceiling coordinates
(excluding X itself)"), so the order-0 dependent variables `U` contribute
nothing.  Stated for refinement comparison with `totDiv`. -/
def totDivSpecSum (X U : List Str) (P : Expr) (i n : Nat) : Option Expr := do
  let xi ← X.get? i
  ((List.range n).flatMap (fun k => njet X U (k+1))).foldlM
    (fun expr s => do
      let r ← uJalpha s xi X U
      pure (.add expr (.mul (diff P s) (.sym r))))
    (diff P xi)

/-- Left-to-right composition of `totDiv` over the multi-index `J` as
given, every single-derivative call receiving the same order ceiling `n`:
the independent reference formulation the `TotDiv` loops are compared
against. -/
def composeTD (X U : List Str) (P : Expr) (n : Nat) (J : List Nat) : Option Expr :=
  J.foldl (fun acc i => acc.bind (fun e => totDiv X U e i n)) (some P)

/-- One pivot scan of the dedup loop, described denotationally: drop every
later element whose sorted characters match the pivot key `pk`, except that
the final element of the region is never examined (the inner `range` stops
one short of the end). -/
def rmbl (pk : Str) : List Str → List Str
  | [] => []
  | [b] => [b]
  | b :: rest => if sortKey b = pk then rmbl pk rest else b :: rmbl pk rest

/-- The dedup loop, described denotationally: keep the head, scrub its later
key-matches (final element excepted), move to the next survivor. -/
def kfl : List Str → List Str
  | [] => []
  | [a] => [a]
  | a :: b :: rest => a :: kfl (rmbl (sortKey a) (b :: rest))
termination_by l => l.length
decreasing_by
  simp only [List.length_cons]
  have H : ∀ pk (l : List Str), (rmbl pk l).length ≤ l.length := by
    intro pk l
    induction l with
    | nil => simp [rmbl]
    | cons x rest ih =>
      cases rest with
      | nil => simp [rmbl]
      | cons y rest2 =>
        rw [rmbl]
        · split
          · exact Nat.le_succ_of_le ih
          · simpa using ih
        · simp
  have := H (sortKey a) (b :: rest)
  simp only [List.length_cons] at this
  omega

/-- First-occurrence filter with respect to a key function, carrying the
already-kept prefix: an element is dropped exactly when some earlier
element has the same key. -/
def foK (key : Str → Str) (seen : List Str) : List Str → List Str
  | [] => []
  | a :: rest =>
    if seen.any (fun b => key b == key a) then foK key seen rest
    else a :: foK key (a :: seen) rest

/-- Keep the first occurrence of every sorted-character class. -/
def firstOcc (l : List Str) : List Str := foK sortKey [] l

/-- All character words of length `n` over the alphabet `A`, letters
appended on the right (last letter varies fastest), as `jet` iterates over
single-character labels. -/
def awc (A : List Char) : Nat → List (List Char)
  | 0 => [[]]
  | n+1 => (awc A n).flatMap (fun w => A.map (fun c => w ++ [c]))

/-- All label words of length `n` over a label alphabet `X`, appended on
the right, as `jet` iterates. -/
def awStr (X : List Str) : Nat → List Str
  | 0 => [[]]
  | n+1 => (awStr X n).flatMap (fun w => X.map (fun x => w ++ x))

/-- The canonical (nondecreasing in alphabet position) words of length `n`
over `A`, in the lexicographic order in which the jet enumeration first
meets each character multiset. -/
def sw : Nat → List Char → List (List Char)
  | 0, _ => [[]]
  | _+1, [] => []
  | n+1, c :: A => (sw n (c :: A)).map (fun w => c :: w) ++ sw (n+1) A
termination_by n A => (n, A.length)

end LieProlong

namespace LieProlong

/-! ### C5: definitions -/

/-- The list of symbol names occurring in an expression. -/
def symList : Expr → List Str
  | .const _ => []
  | .sym t => [t]
  | .add a b => symList a ++ symList b
  | .sub a b => symList a ++ symList b
  | .mul a b => symList a ++ symList b

/-- The resolved one-higher derivative symbol: sorted characters of `s`
with the independent variable `c` adjoined, as `uJalpha` returns it. -/
def rK (c : Char) (s : Str) : Str := sortKey (s ++ [c])

/-- The non-`X` part of `fulljet(['x','y'],['u'],n)`: `u` followed by the
order-1..n jet symbols, the summation range of `totDiv`. -/
def LnXY (n : Nat) : List Str :=
  Uu ++ (List.range n).flatMap (fun k => njet Xxy Uu (k+1))

/-- Well-formedness over the order-m jet space on `X=['x','y']`, `U=['u']`:
every symbol of `P` is an independent variable or a jet coordinate of order
at most `m`. -/
def wfXY (m : Nat) (P : Expr) : Prop :=
  ∀ s ∈ symList P, s ∈ Xxy ∨ s ∈ LnXY m

end LieProlong


namespace LieProlong

/-! ### Helper lemmas -/

/-- A `foldlM` whose step extends the accumulator by one appended element
returns an extension of the start, with one element per input item. -/
theorem foldlM_append_ext {γ : Type} (f : List Expr → γ → Option (List Expr))
    (hf : ∀ a x b, f a x = some b → ∃ c, b = a ++ [c]) :
    ∀ (l : List γ) (a r : List Expr), l.foldlM f a = some r →
      ∃ t, r = a ++ t ∧ t.length = l.length := by
  intro l
  induction l with
  | nil => intro a r h; exact ⟨[], by simpa using h.symm, rfl⟩
  | cons x xs ih =>
    intro a r h
    rw [List.foldlM_cons] at h
    rcases hb : f a x with _ | b
    · rw [hb] at h; exact absurd h (by simp)
    · rw [hb] at h
      obtain ⟨c, rfl⟩ := hf a x b hb
      obtain ⟨t, rfl, hlen⟩ := ih _ r h
      exact ⟨[c] ++ t, by simp, by simp [hlen]⟩

end LieProlong

namespace LieProlong

/-! ### Claim theorems: first group -/

/-- C4 -/
theorem c4_totdiv_demo :
    ∃ E, totDiv Xxy Uu xuuxy 0 2 = some E ∧ algEq E c4target := by
  refine ⟨_, by rfl, ?_⟩
  intro ρ
  simp only [eval, c4target, xuuxy, List.cons_append, List.nil_append, List.singleton_append]
  ring

/-- C3 -/
theorem c3_translation_prolongation :
    ∃ e1 e2, Prolong Xx Uu vTrans 2 = some [.const 1, .const 0, e1, e2] ∧
      algEq e1 (.const 0) ∧ algEq e2 (.const 0) := by
  refine ⟨_, _, by rfl, ?_, ?_⟩ <;> intro ρ <;>
    simp only [eval, List.cons_append, List.nil_append, List.singleton_append] <;> ring

/-- C10 -/
theorem c10_multichar_label_miss :
    uJalpha ['u','u'] ['t'] [['t']] [['u','u']] = none ∧
      ['u','u','t'] ∈ njet [['t']] [['u','u']] (0+1) ∧
      sortKey (['u','u'] ++ ['t']) = sortKey ['u','u','t'] := by
  decide

/-- C8 counterexample -/
theorem c8_counterexample :
    uJalpha ['u'] ['z'] Xx Uu = none := by decide

/-- C8 amended -/
theorem c8_amended_returns_none (u x : Str) (X U : List Str)
    (h : ∀ s ∈ njet X U u.length, ¬ sortKey (u ++ x) = sortKey s) :
    uJalpha u x X U = none := by
  unfold uJalpha
  rw [List.find?_eq_none]
  intro s hs
  simpa using h s hs

/-- C8 witness -/
theorem c8_amended_witness :
    (∀ s ∈ njet Xx Uu (['u'] : Str).length, ¬ sortKey (['u'] ++ ['z']) = sortKey s) ∧
      uJalpha ['u'] ['z'] Xx Uu = none :=
  ⟨by decide, c8_amended_returns_none ['u'] ['z'] Xx Uu (by decide)⟩

/-- C7 counterexample -/
theorem c7_counterexample :
    (totDiv Xx Uu (.sym ['u']) 0 1).map (eval rhoUx) = some 1 ∧
      (totDivSpecSum Xx Uu (.sym ['u']) 0 1).map (eval rhoUx) = some 0 := by
  constructor <;> rfl

/-- C6 -/
theorem c6_composition_order (X U : List Str) (P : Expr) (J : List Nat) (h : J ≠ []) :
    TotDivEarly X U P J = composeTD X U P (J.length + 1) J ∧
      TotDiv X U P (J.length + 1) J = composeTD X U P (J.length + 1) J := by
  match J with
  | [] => exact absurd rfl h
  | j :: rest =>
    constructor <;> simp [TotDivEarly, TotDiv, composeTD, List.foldl_cons]

/-- C6 witness -/
theorem c6_witness :
    ([0,1] : List Nat) ≠ [] ∧
      TotDivEarly Xxy Uu xuuxy [0,1] = composeTD Xxy Uu xuuxy ([0,1].length + 1) [0,1] :=
  ⟨by decide, (c6_composition_order Xxy Uu xuuxy [0,1] (by decide)).1⟩

/-- C1 counterexample -/
theorem c1_counterexample :
    (Prolong Xxy Uu [.const 1, .const 0, .const 0] 2).map List.length = some 7 ∧
      ¬ (7 = 2 + 1 + 1 * (Nat.choose 2 1 + Nat.choose 3 2)) := by
  constructor
  · rfl
  · decide

/-- C9 counterexample -/
theorem c9_counterexample :
    (ProlongCallerV Xx Uu vTrans 1).map List.length = some 3 ∧ ¬ (3 = 1 + 1) := by
  constructor
  · rfl
  · decide

end LieProlong

namespace LieProlong

/-! ### Prolong shape and mutation (C9 amended) -/

/-- A `foldlM` each of whose successful steps appends exactly `m` elements
returns the start extended by `l.length * m` elements. -/
theorem foldlM_ext_len {γ : Type} (f : List Expr → γ → Option (List Expr)) (m : Nat)
    (hf : ∀ a x b, f a x = some b → ∃ t, b = a ++ t ∧ t.length = m) :
    ∀ (l : List γ) (a r : List Expr), l.foldlM f a = some r →
      ∃ t, r = a ++ t ∧ t.length = l.length * m := by
  intro l
  induction l with
  | nil => intro a r h; exact ⟨[], by simpa using h.symm, by simp⟩
  | cons x xs ih =>
    intro a r h
    rw [List.foldlM_cons] at h
    rcases hb : f a x with _ | b
    · rw [hb] at h; exact absurd h (by simp)
    · rw [hb] at h
      obtain ⟨t, rfl, hm⟩ := hf a x b hb
      obtain ⟨t2, rfl, hlen⟩ := ih _ r h
      exact ⟨t ++ t2, by simp, by simp [hlen, hm, List.length_cons, Nat.succ_mul, Nat.add_comm]⟩

/-- The innermost Prolong step on a successful run appends one element. -/
theorem prolong_inner_step (X U : List Str) (n : Nat) (i j : Nat) (a : List Expr)
    (q : Nat) (b : List Expr)
    (h : (do
          let Ji ← (diffOrd X.length n).get? i
          let Jij ← Ji.get? j
          let c ← phiAlpha X U a Jij q
          pure (a ++ [c]) : Option (List Expr)) = some b) :
    ∃ c, b = a ++ [c] := by
  rcases hJi : (diffOrd X.length n).get? i with _ | Ji <;> rw [hJi] at h
  · exact Option.noConfusion h
  have h2 : (do
      let Jij ← Ji.get? j
      let c ← phiAlpha X U a Jij q
      pure (a ++ [c]) : Option (List Expr)) = some b := h
  rcases hJij : Ji.get? j with _ | Jij <;> rw [hJij] at h2
  · exact Option.noConfusion h2
  have h3 : (do
      let c ← phiAlpha X U a Jij q
      pure (a ++ [c]) : Option (List Expr)) = some b := h2
  rcases hc : phiAlpha X U a Jij q with _ | c <;> rw [hc] at h3
  · exact Option.noConfusion h3
  have h4 : some (a ++ [c]) = some b := h3
  exact ⟨c, (Option.some_inj.mp h4).symm⟩

/-- On a successful run, `Prolong` returns the input list extended by
`n * (len X * len U)` appended coefficients. -/
theorem prolong_shape (X U : List Str) (v : List Expr) (n : Nat) (l : List Expr)
    (h : Prolong X U v n = some l) :
    ∃ t, l = v ++ t ∧ t.length = n * (X.length * U.length) := by
  have main := foldlM_ext_len
    (fun a i =>
      (List.range X.length).foldlM
        (fun a j =>
          (List.range U.length).foldlM
            (fun a q => do
              let Ji ← (diffOrd X.length n).get? i
              let Jij ← Ji.get? j
              let c ← phiAlpha X U a Jij q
              pure (a ++ [c]))
            a)
        a)
    (X.length * U.length) ?hf (List.range n) v l ?hrun
  case hf =>
    intro a i b hb
    have mid := foldlM_ext_len _ U.length ?hg (List.range X.length) a b hb
    case hg =>
      intro a2 j b2 hb2
      have inner := foldlM_ext_len _ 1 ?hh (List.range U.length) a2 b2 hb2
      case hh =>
        intro a3 q b3 hb3
        obtain ⟨c, rfl⟩ := prolong_inner_step X U n i j a3 q b3 hb3
        exact ⟨[c], rfl, rfl⟩
      simpa [List.length_range] using inner
    simpa [List.length_range] using mid
  case hrun => simpa [Prolong] using h
  simpa [List.length_range] using main

/-- C9 amended -/
theorem c9_amended_mutation (X U : List Str) (v : List Expr) (n : Nat) (l : List Expr)
    (h : Prolong X U v n = some l) :
    ProlongCallerV X U v n = some l ∧ l.take v.length = v ∧
      l.length = v.length + n * (X.length * U.length) := by
  obtain ⟨t, rfl, hlen⟩ := prolong_shape X U v n l h
  exact ⟨h, List.take_left v t, by simp [hlen]⟩

/-- C9 witness -/
theorem c9_amended_witness :
    ∃ l, Prolong Xx Uu vTrans 1 = some l ∧
      (ProlongCallerV Xx Uu vTrans 1 = some l ∧ l.take vTrans.length = vTrans ∧
        l.length = vTrans.length + 1 * (Xx.length * Uu.length)) :=
  ⟨_, by rfl, c9_amended_mutation Xx Uu vTrans 1 _ (by rfl)⟩

end LieProlong

namespace LieProlong

/-! ### totDiv as a chain-rule sum (C7 amended) -/

/-- The chain-rule fold of `totDiv` evaluates to the starting expression
plus the sum of `diff(P,s) * resolve(s)` over the symbol list, whenever
every resolution succeeds. -/
theorem totDiv_fold_eval (X U : List Str) (xi : Str) (r : Str → Str) (P : Expr) :
    ∀ (L : List Str) (acc : Expr), (∀ s ∈ L, uJalpha s xi X U = some (r s)) →
      ∃ E, (L.foldlM
          (fun expr s => do
            let rr ← uJalpha s xi X U
            pure (Expr.add expr (.mul (diff P s) (.sym rr))))
          acc) = some E ∧
        ∀ ρ, eval ρ E = eval ρ acc + (L.map (fun s => eval ρ (diff P s) * ρ (r s))).sum := by
  intro L
  induction L with
  | nil => exact fun acc _ => ⟨acc, rfl, by simp⟩
  | cons s L ih =>
    intro acc hres
    have hs : uJalpha s xi X U = some (r s) := hres s (List.mem_cons_self s L)
    obtain ⟨E, hE, hev⟩ := ih (.add acc (.mul (diff P s) (.sym (r s))))
      (fun t ht => hres t (List.mem_cons_of_mem s ht))
    refine ⟨E, ?_, ?_⟩
    · rw [List.foldlM_cons, hs]
      exact hE
    · intro ρ
      rw [hev ρ]
      simp [eval, List.sum_cons]
      ring

/-- C7 amended -/
theorem c7_amended_sum (X U : List Str) (P : Expr) (i n : Nat) (xi : Str) (r : Str → Str)
    (hxi : X.get? i = some xi)
    (hU : ∀ u0 ∈ U, ¬ u0 ∈ X)
    (hjets : ∀ s ∈ (List.range n).flatMap (fun k => njet X U (k+1)), ¬ s ∈ X)
    (hres : ∀ s ∈ U ++ (List.range n).flatMap (fun k => njet X U (k+1)),
      uJalpha s xi X U = some (r s)) :
    (fulljet X U n).filter (fun v => ¬ v ∈ X) =
        U ++ (List.range n).flatMap (fun k => njet X U (k+1)) ∧
      ∃ E, totDiv X U P i n = some E ∧
        ∀ ρ, eval ρ E = eval ρ (diff P xi) +
          ((U ++ (List.range n).flatMap (fun k => njet X U (k+1))).map
            (fun s => eval ρ (diff P s) * ρ (r s))).sum := by
  have hfilter : (fulljet X U n).filter (fun v => ¬ v ∈ X) =
      U ++ (List.range n).flatMap (fun k => njet X U (k+1)) := by
    unfold fulljet
    rw [List.filter_append, List.filter_append]
    rw [List.filter_eq_nil_iff.mpr (by intro a ha; simpa using ha),
      List.filter_eq_self.mpr (by intro a ha; simpa using hU a ha),
      List.filter_eq_self.mpr (by intro a ha; simpa using hjets a ha)]
    simp
  refine ⟨hfilter, ?_⟩
  obtain ⟨E, hE, hev⟩ := totDiv_fold_eval X U xi r P
    (U ++ (List.range n).flatMap (fun k => njet X U (k+1))) (diff P xi) hres
  refine ⟨E, ?_, hev⟩
  unfold totDiv
  rw [hxi]
  have : ((fulljet X U n).filter (fun v => ¬ v ∈ X)).foldlM
      (fun expr s => do
        let rr ← uJalpha s xi X U
        pure (Expr.add expr (.mul (diff P s) (.sym rr))))
      (diff P xi) = some E := by
    rw [hfilter]; exact hE
  exact this

/-- C7 witness: at `X=['x','y']`, `U=['u']`, `P = x*u*uxy`, `n = 2`. -/
theorem c7_amended_witness :
    ∃ E, totDiv Xxy Uu xuuxy 0 2 = some E := by
  obtain ⟨-, E, hE, -⟩ := c7_amended_sum Xxy Uu xuuxy 0 2 ['x']
    (fun s => sortKey (s ++ ['x'])) (by decide) (by decide) (by decide) (by decide)
  exact ⟨E, hE⟩

end LieProlong

namespace LieProlong

/-! ### Stability and index lemmas for Prolong (C1 amended) -/

/-- `phiAlpha` reads only the first `len X + len U` entries of the vector
list, so appending entries (as `Prolong`'s aliased `a.append` does during
the loop) leaves every coefficient unchanged. -/
theorem phiAlpha_stable (X U : List Str) (v t : List Expr) (J : List Nat) (q : Nat)
    (hq : q < U.length) (hv : X.length + U.length ≤ v.length) :
    phiAlpha X U (v ++ t) J q = phiAlpha X U v J q := by
  have hp : X.length ≤ v.length := le_trans (Nat.le_add_right _ _) hv
  have hlt : q < (v.drop X.length).length := by
    rw [List.length_drop]
    omega
  simp only [phiAlpha, List.take_append_of_le_length hp,
    List.drop_append_of_le_length hp, List.get?_append hlt]

/-- Every `cwrAux p lo k` with `lo < p` is nonempty. -/
theorem cwrAux_ne_nil (p : Nat) : ∀ (k lo : Nat), lo < p → cwrAux p lo k ≠ [] := by
  intro k
  induction k with
  | zero => intro lo _; simp [cwrAux]
  | succ k ih =>
    intro lo hlo
    have hmem : lo ∈ (List.range p).drop lo := by
      have hg : ((List.range p).drop lo).get? 0 = some lo := by
        rw [List.get?_drop]
        simpa using List.get?_range hlo
      exact List.get?_mem hg
    intro hnil
    rw [cwrAux, List.flatMap_eq_nil_iff] at hnil
    have := hnil lo hmem
    rw [List.map_eq_nil_iff] at this
    exact ih lo hlo this

/-- A `flatMap` with nonempty images is at least as long as its index list. -/
theorem length_le_length_flatMap {α β : Type} (l : List α) (f : α → List β)
    (h : ∀ x ∈ l, f x ≠ []) : l.length ≤ (l.flatMap f).length := by
  induction l with
  | nil => simp
  | cons x xs ih =>
    rw [List.flatMap_cons, List.length_append, List.length_cons]
    have h1 : 1 ≤ (f x).length :=
      Nat.one_le_iff_ne_zero.mpr (fun h0 => h x (List.mem_cons_self x xs) (List.eq_nil_of_length_eq_zero h0))
    have h2 := ih (fun y hy => h y (List.mem_cons_of_mem x hy))
    omega

/-- The order-`k+1` multi-index list has at least `p` entries, so
`Prolong`'s inner loop indexing `J[i][j]` for `j < p` always succeeds. -/
theorem cwr_get_lt (p k j : Nat) (hj : j < p) : ∃ Jj, (cwr p (k+1)).get? j = some Jj := by
  have hlen : p ≤ (cwr p (k+1)).length := by
    have : (List.range p).drop 0 = List.range p := rfl
    rw [cwr, cwrAux, this]
    calc p = (List.range p).length := (List.length_range p).symm
      _ ≤ _ := length_le_length_flatMap _ _ (by
          intro x hx
          rw [List.mem_range] at hx
          simp only [ne_eq, List.map_eq_nil_iff]
          exact cwrAux_ne_nil p k x hx)
  exact ⟨_, List.get?_eq_some.mpr ⟨Nat.lt_of_lt_of_le hj hlen, rfl⟩⟩

/-- `diffOrd` lookup: position `i < n` holds the order-`i+1` index list. -/
theorem diffOrd_get (p n i : Nat) (hi : i < n) :
    (diffOrd p n).get? i = some (cwr p (i+1)) := by
  rw [diffOrd, List.get?_map, List.get?_range hi]
  rfl

end LieProlong

namespace LieProlong

/-! ### Prolong loop characterization (C1 amended) -/

/-- With both index lookups pinned, the innermost Prolong step is a bind on
`phiAlpha` alone. -/
theorem prolong_step_eq (X U : List Str) (n i j : Nat) (Ji : List (List Nat)) (Jij : List Nat)
    (hJi : (diffOrd X.length n).get? i = some Ji) (hJij : Ji.get? j = some Jij)
    (a : List Expr) (q : Nat) :
    (do
      let Ji2 ← (diffOrd X.length n).get? i
      let Jij2 ← Ji2.get? j
      let c ← phiAlpha X U a Jij2 q
      pure (a ++ [c]) : Option (List Expr)) =
      (phiAlpha X U a Jij q).bind (fun c => some (a ++ [c])) := by
  rw [hJi]
  show (do
      let Jij2 ← Ji.get? j
      let c ← phiAlpha X U a Jij2 q
      pure (a ++ [c]) : Option (List Expr)) = _
  rw [hJij]
  rfl

/-- Innermost Prolong loop: appends `phiAlpha` of the original `v` for each
dependent index, in order. -/
theorem prolong_fold_q (X U : List Str) (v : List Expr) (n i j : Nat)
    (Ji : List (List Nat)) (Jij : List Nat)
    (hJi : (diffOrd X.length n).get? i = some Ji) (hJij : Ji.get? j = some Jij)
    (hv : X.length + U.length ≤ v.length) :
    ∀ (qs : List Nat) (t0 r : List Expr), (∀ q ∈ qs, q < U.length) →
      qs.foldlM (fun a q => do
          let Ji2 ← (diffOrd X.length n).get? i
          let Jij2 ← Ji2.get? j
          let c ← phiAlpha X U a Jij2 q
          pure (a ++ [c])) (v ++ t0) = some r →
      r = (v ++ t0) ++ qs.flatMap (fun q => (phiAlpha X U v Jij q).toList) := by
  intro qs
  induction qs with
  | nil => intro t0 r _ h; simpa using (by simpa using h.symm : r = v ++ t0)
  | cons q qs ih =>
    intro t0 r hqs h
    rw [List.foldlM_cons, prolong_step_eq X U n i j Ji Jij hJi hJij] at h
    rcases hc : phiAlpha X U (v ++ t0) Jij q with _ | c <;> rw [hc] at h
    · exact absurd h (by simp)
    have hc0 : phiAlpha X U v Jij q = some c := by
      rw [← phiAlpha_stable X U v t0 Jij q (hqs q (List.mem_cons_self q qs)) hv]
      exact hc
    have h2 : qs.foldlM (fun a q => do
          let Ji2 ← (diffOrd X.length n).get? i
          let Jij2 ← Ji2.get? j
          let c ← phiAlpha X U a Jij2 q
          pure (a ++ [c])) ((v ++ t0) ++ [c]) = some r := h
    rw [List.append_assoc] at h2
    have := ih (t0 ++ [c]) r (fun q2 hq2 => hqs q2 (List.mem_cons_of_mem q hq2)) h2
    rw [this, List.flatMap_cons, hc0]
    simp

/-- Middle Prolong loop over the independent-variable slots. -/
theorem prolong_fold_j (X U : List Str) (v : List Expr) (n i : Nat)
    (Ji : List (List Nat))
    (hJi : (diffOrd X.length n).get? i = some Ji)
    (hv : X.length + U.length ≤ v.length) :
    ∀ (js : List Nat) (t0 r : List Expr),
      (∀ j ∈ js, ∃ Jij, Ji.get? j = some Jij) →
      js.foldlM (fun a j =>
          (List.range U.length).foldlM (fun a q => do
            let Ji2 ← (diffOrd X.length n).get? i
            let Jij2 ← Ji2.get? j
            let c ← phiAlpha X U a Jij2 q
            pure (a ++ [c])) a) (v ++ t0) = some r →
      r = (v ++ t0) ++ js.flatMap (fun j =>
            (List.range U.length).flatMap (fun q =>
              (phiAlpha X U v (Ji.getD j []) q).toList)) := by
  intro js
  induction js with
  | nil => intro t0 r _ h; simpa using (by simpa using h.symm : r = v ++ t0)
  | cons j js ih =>
    intro t0 r hjs h
    obtain ⟨Jij, hJij⟩ := hjs j (List.mem_cons_self j js)
    rw [List.foldlM_cons] at h
    rcases hb : (List.range U.length).foldlM (fun a q => do
        let Ji2 ← (diffOrd X.length n).get? i
        let Jij2 ← Ji2.get? j
        let c ← phiAlpha X U a Jij2 q
        pure (a ++ [c])) (v ++ t0) with _ | b <;> rw [hb] at h
    · exact absurd h (by simp)
    have hbv : b = (v ++ t0) ++ (List.range U.length).flatMap
        (fun q => (phiAlpha X U v Jij q).toList) :=
      prolong_fold_q X U v n i j Ji Jij hJi hJij hv (List.range U.length) t0 b
        (fun q hq => List.mem_range.mp hq) hb
    have hgd : Ji.getD j [] = Jij := by
      rw [List.getD_eq_get?, hJij]
      rfl
    have h2 : js.foldlM (fun a j =>
        (List.range U.length).foldlM (fun a q => do
          let Ji2 ← (diffOrd X.length n).get? i
          let Jij2 ← Ji2.get? j
          let c ← phiAlpha X U a Jij2 q
          pure (a ++ [c])) a)
        (v ++ (t0 ++ (List.range U.length).flatMap
          (fun q => (phiAlpha X U v Jij q).toList))) = some r := by
      rw [hbv, List.append_assoc] at h
      exact h
    have := ih _ r (fun j2 hj2 => hjs j2 (List.mem_cons_of_mem j hj2)) h2
    rw [this, List.flatMap_cons, hgd]
    simp


/-- Outer Prolong loop over the order bands. -/
theorem prolong_fold_i (X U : List Str) (v : List Expr) (n : Nat)
    (hv : X.length + U.length ≤ v.length) :
    ∀ (ords : List Nat) (t0 r : List Expr), (∀ i ∈ ords, i < n) →
      ords.foldlM (fun a i =>
          (List.range X.length).foldlM (fun a j =>
            (List.range U.length).foldlM (fun a q => do
              let Ji2 ← (diffOrd X.length n).get? i
              let Jij2 ← Ji2.get? j
              let c ← phiAlpha X U a Jij2 q
              pure (a ++ [c])) a) a) (v ++ t0) = some r →
      r = (v ++ t0) ++ ords.flatMap (fun i =>
            (List.range X.length).flatMap (fun j =>
              (List.range U.length).flatMap (fun q =>
                (phiAlpha X U v (((diffOrd X.length n).getD i []).getD j []) q).toList))) := by
  intro ords
  induction ords with
  | nil => intro t0 r _ h; simpa using (by simpa using h.symm : r = v ++ t0)
  | cons i ords ih =>
    intro t0 r hords h
    have hJi : (diffOrd X.length n).get? i = some (cwr X.length (i+1)) :=
      diffOrd_get X.length n i (hords i (List.mem_cons_self i ords))
    rw [List.foldlM_cons] at h
    rcases hb : (List.range X.length).foldlM (fun a j =>
        (List.range U.length).foldlM (fun a q => do
          let Ji2 ← (diffOrd X.length n).get? i
          let Jij2 ← Ji2.get? j
          let c ← phiAlpha X U a Jij2 q
          pure (a ++ [c])) a) (v ++ t0) with _ | b <;> rw [hb] at h
    · exact absurd h (by simp)
    have hbv : b = (v ++ t0) ++ (List.range X.length).flatMap (fun j =>
        (List.range U.length).flatMap (fun q =>
          (phiAlpha X U v ((cwr X.length (i+1)).getD j []) q).toList)) :=
      prolong_fold_j X U v n i (cwr X.length (i+1)) hJi hv (List.range X.length) t0 b
        (fun j hj => cwr_get_lt X.length i j (List.mem_range.mp hj)) hb
    have hgdi : (diffOrd X.length n).getD i [] = cwr X.length (i+1) := by
      rw [List.getD_eq_get?, hJi]
      rfl
    have h2 : ords.foldlM (fun a i =>
        (List.range X.length).foldlM (fun a j =>
          (List.range U.length).foldlM (fun a q => do
            let Ji2 ← (diffOrd X.length n).get? i
            let Jij2 ← Ji2.get? j
            let c ← phiAlpha X U a Jij2 q
            pure (a ++ [c])) a) a)
        ((v ++ t0) ++ (List.range X.length).flatMap (fun j =>
          (List.range U.length).flatMap (fun q =>
            (phiAlpha X U v ((cwr X.length (i+1)).getD j []) q).toList))) = some r := by
      rw [hbv] at h
      exact h
    rw [List.append_assoc] at h2
    have := ih _ r (fun i2 hi2 => hords i2 (List.mem_cons_of_mem i hi2)) h2
    rw [this, List.flatMap_cons, hgdi]
    simp

/-- C1 amended: on a successful run `Prolong` returns `v` extended by, for
each order band `i < n`, each slot `j < len X` (only the first `len X`
multi-indices of the order-`i+1` list), and each dependent index
`q < len U`, the coefficient `phiAlpha(X,U,v,J[i][j],q)`, appended in that
loop order; in particular `n*(len X)*(len U)` coefficients in all. -/
theorem c1_amended_structure (X U : List Str) (v : List Expr) (n : Nat) (l : List Expr)
    (hv : X.length + U.length ≤ v.length) (h : Prolong X U v n = some l) :
    l = v ++ (List.range n).flatMap (fun i =>
        (List.range X.length).flatMap (fun j =>
          (List.range U.length).flatMap (fun q =>
            (phiAlpha X U v (((diffOrd X.length n).getD i []).getD j []) q).toList))) ∧
      l.length = v.length + n * (X.length * U.length) := by
  obtain ⟨t, hl, hlen⟩ := prolong_shape X U v n l h
  have hrun : (List.range n).foldlM (fun a i =>
      (List.range X.length).foldlM (fun a j =>
        (List.range U.length).foldlM (fun a q => do
          let Ji2 ← (diffOrd X.length n).get? i
          let Jij2 ← Ji2.get? j
          let c ← phiAlpha X U a Jij2 q
          pure (a ++ [c])) a) a) (v ++ []) = some l := by
    rw [List.append_nil]
    simpa [Prolong] using h
  have hmain := prolong_fold_i X U v n hv (List.range n) [] l
    (fun i hi => List.mem_range.mp hi) hrun
  constructor
  · simpa using hmain
  · rw [hl]
    simp [hlen]

/-- C1 witness for the amended statement, at `X=['x','y']`, `U=['u']`,
`v=[1,0,0]`, `n=2`. -/
theorem c1_amended_witness :
    ∃ l, Prolong Xxy Uu [Expr.const 1, .const 0, .const 0] 2 = some l ∧
      (l = [Expr.const 1, .const 0, .const 0] ++ (List.range 2).flatMap (fun i =>
          (List.range Xxy.length).flatMap (fun j =>
            (List.range Uu.length).flatMap (fun q =>
              (phiAlpha Xxy Uu [Expr.const 1, .const 0, .const 0]
                (((diffOrd Xxy.length 2).getD i []).getD j []) q).toList))) ∧
        l.length = ([Expr.const 1, .const 0, .const 0] : List Expr).length +
          2 * (Xxy.length * Uu.length)) :=
  ⟨_, by rfl, c1_amended_structure Xxy Uu [Expr.const 1, .const 0, .const 0] 2 _
    (by decide) (by rfl)⟩

end LieProlong

namespace LieProlong

/-! ### The dedup loop: inner scan -/

/-- Sorted-character keys agree exactly on permutations (the character
multisets agree), which is the equivalence CPython's
`sorted(s1) == sorted(s2)` test decides. -/
theorem sortKey_eq_iff {a b : Str} : sortKey a = sortKey b ↔ a.Perm b := by
  constructor
  · intro h
    have ha := List.perm_insertionSort (· ≤ ·) a
    have hb := List.perm_insertionSort (· ≤ ·) b
    exact ha.symm.trans (by rw [sortKey] at h; rw [h]; exact hb)
  · intro h
    refine List.eq_of_perm_of_sorted ?_ (List.sorted_insertionSort _ a) (List.sorted_insertionSort _ b)
    exact ((List.perm_insertionSort _ a).trans h).trans (List.perm_insertionSort _ b).symm

/-- Unfolding of `rmbl` on a list of length at least two. -/
theorem rmbl_cons (pk : Str) (m : Str) (rest : List Str) (h : rest ≠ []) :
    rmbl pk (m :: rest) = if sortKey m = pk then rmbl pk rest else m :: rmbl pk rest := by
  cases rest with
  | nil => exact absurd rfl h
  | cons y r2 =>
    rw [rmbl]
    · simp

/-- The inner dedup scan over a region `B` behind a processed prefix `A`
removes exactly the later key-matches of the pivot, never examining the
final element. -/
theorem njetInner_spec (i : Nat) (p : Str) :
    ∀ (B A : List Str), (A ++ B).Nodup → i < A.length → A.get? i = some p →
      njetInner i (A ++ B) A.length (B.length - 1) = A ++ rmbl (sortKey p) B := by
  intro B
  induction B with
  | nil =>
    intro A _ _ _
    simp [njetInner, rmbl]
  | cons b B ih =>
    intro A hnd hi hp
    cases B with
    | nil =>
      simp [njetInner, rmbl]
    | cons b2 B2 =>
      have hsteps : (b :: b2 :: B2).length - 1 = (b2 :: B2).length - 1 + 1 := by
        simp
      rw [hsteps, njetInner]
      have hgi : (A ++ b :: b2 :: B2).get? i = some p := by
        rw [List.get?_append hi]; exact hp
      have hgk : (A ++ b :: b2 :: B2).get? A.length = some b := by
        rw [List.get?_append_right (le_refl _)]
        simp
      rw [hgi, hgk]
      show (if sortKey b = sortKey p then
          njetInner i ((A ++ b :: b2 :: B2).erase b) A.length ((b2 :: B2).length - 1)
        else njetInner i (A ++ b :: b2 :: B2) (A.length + 1) ((b2 :: B2).length - 1)) =
        A ++ rmbl (sortKey p) (b :: b2 :: B2)
      rw [rmbl_cons (sortKey p) b (b2 :: B2) (by simp)]
      by_cases hkey : sortKey b = sortKey p
      · rw [if_pos hkey, if_pos hkey]
        have hbA : ¬ b ∈ A := by
          intro hmem
          have := (List.nodup_append.mp hnd).2.2
          exact this hmem (by simp)
        have herase : (A ++ b :: b2 :: B2).erase b = A ++ (b2 :: B2) := by
          rw [List.erase_append_right _ hbA, List.erase_cons_head]
        rw [herase]
        have hnd2 : (A ++ (b2 :: B2)).Nodup := by
          refine List.Nodup.sublist ?_ hnd
          exact List.Sublist.append_left (List.sublist_cons_self b (b2 :: B2)) A
        exact ih A hnd2 hi hp
      · rw [if_neg hkey, if_neg hkey]
        have hnd2 : ((A ++ [b]) ++ (b2 :: B2)).Nodup := by
          rw [List.append_assoc]
          simpa using hnd
        have hi2 : i < (A ++ [b]).length := by
          rw [List.length_append]
          omega
        have hp2 : (A ++ [b]).get? i = some p := by
          rw [List.get?_append hi]; exact hp
        have := ih (A ++ [b]) hnd2 hi2 hp2
        have hlen : (A ++ [b]).length = A.length + 1 := by simp
        rw [hlen] at this
        simp only [List.append_assoc, List.singleton_append] at this
        exact this

end LieProlong

namespace LieProlong

/-! ### The dedup loop: outer pass -/

/-- The pivot scan never lengthens the region. -/
theorem rmbl_length_le (pk : Str) : ∀ (l : List Str), (rmbl pk l).length ≤ l.length := by
  intro l
  induction l with
  | nil => simp [rmbl]
  | cons x rest ih =>
    cases rest with
    | nil => simp [rmbl]
    | cons y rest2 =>
      rw [rmbl_cons pk x (y :: rest2) (by simp)]
      split
      · exact Nat.le_succ_of_le ih
      · simpa using ih

/-- The pivot scan yields a sublist. -/
theorem rmbl_sublist (pk : Str) : ∀ (l : List Str), (rmbl pk l).Sublist l := by
  intro l
  induction l with
  | nil => simp [rmbl]
  | cons x rest ih =>
    cases rest with
    | nil => simp [rmbl]
    | cons y rest2 =>
      rw [rmbl_cons pk x (y :: rest2) (by simp)]
      split
      · exact ih.cons x
      · exact ih.cons₂ x

/-- `kfl` fixes lists of length at most one. -/
theorem kfl_short (l : List Str) (h : l.length ≤ 1) : kfl l = l := by
  match l with
  | [] => rw [kfl]
  | [a] => rw [kfl]
  | a :: b :: rest => simp at h

/-- Unfolding of `kfl` on a list of length at least two. -/
theorem kfl_cons (a : Str) (T : List Str) (h : T ≠ []) :
    kfl (a :: T) = a :: kfl (rmbl (sortKey a) T) := by
  match T with
  | [] => exact absurd rfl h
  | b :: rest => rw [kfl]

/-- The outer dedup loop equals the denotational `kfl` on the unprocessed
region, given enough fuel and no duplicate entries. -/
theorem njetOuter_spec : ∀ (fuel : Nat) (R D : List Str), (D ++ R).Nodup →
    R.length ≤ fuel + 1 → njetOuter fuel (D ++ R) D.length = D ++ kfl R := by
  intro fuel
  induction fuel with
  | zero =>
    intro R D _ hR
    rw [njetOuter, kfl_short R (by omega)]
  | succ fuel ih =>
    intro R D hnd hR
    cases R with
    | nil =>
      rw [njetOuter]
      simp only [List.append_nil]
      have h0 : D.length - D.length - 2 = 0 := by omega
      rw [h0, njetInner, if_pos (by omega), kfl]
      simp
    | cons a T =>
      rw [njetOuter]
      have hlen : (D ++ a :: T).length - D.length - 2 = T.length - 1 := by
        simp only [List.length_append, List.length_cons]
        omega
      have hassoc : D ++ a :: T = (D ++ [a]) ++ T := (List.append_assoc D [a] T).symm
      have hpiv : (D ++ [a]).get? D.length = some a := List.get?_concat_length D a
      have hin : njetInner D.length (D ++ a :: T) (D.length + 1) (T.length - 1) =
          (D ++ [a]) ++ rmbl (sortKey a) T := by
        have hnd1 : ((D ++ [a]) ++ T).Nodup := by rw [← hassoc]; exact hnd
        have := njetInner_spec D.length a T (D ++ [a]) hnd1 (by simp) hpiv
        simp only [List.length_append, List.length_singleton] at this
        rw [← hassoc] at this
        exact this
      rw [hlen]
      have hk1 : D.length + 1 = D.length + 1 := rfl
      rw [hin]
      by_cases hbreak : ((D ++ [a]) ++ rmbl (sortKey a) T).length ≤ D.length + 2
      · rw [if_pos hbreak]
        have hrlen : (rmbl (sortKey a) T).length ≤ 1 := by
          simp at hbreak
          omega
        cases T with
        | nil =>
          rw [kfl]
          simp [rmbl]
        | cons b T2 =>
          rw [kfl_cons a (b :: T2) (by simp)]
          rw [kfl_short _ hrlen]
          simp
      · rw [if_neg hbreak]
        cases T with
        | nil =>
          exact absurd (by simp [rmbl]) hbreak
        | cons b T2 =>
          have hnd2 : ((D ++ [a]) ++ rmbl (sortKey a) (b :: T2)).Nodup := by
            refine List.Nodup.sublist ?_ hnd
            rw [hassoc]
            exact List.Sublist.append_left (rmbl_sublist _ _) (D ++ [a])
          have hR2 : (rmbl (sortKey a) (b :: T2)).length ≤ fuel + 1 := by
            have h1 := rmbl_length_le (sortKey a) (b :: T2)
            simp at hR ⊢
            simp at h1
            omega
          have := ih (rmbl (sortKey a) (b :: T2)) (D ++ [a]) hnd2 hR2
          rw [List.length_append] at this
          simp only [List.length_cons, List.length_nil] at this
          have hfix : D.length + (0 + 1) = D.length + 1 := by omega
          rw [hfix] at this
          rw [this]
          rw [kfl_cons a (b :: T2) (by simp)]
          simp

/-- On duplicate-free symbol lists the `njet` dedup loop equals `kfl`. -/
theorem njet_eq_kfl (X U : List Str) (n : Nat) (hnd : (jetIter X U n).Nodup) :
    njet X U n = kfl (jetIter X U n) := by
  have := njetOuter_spec (jetIter X U n).length (jetIter X U n) [] (by simpa using hnd)
    (by omega)
  simpa using this

end LieProlong

namespace LieProlong

/-! ### First-occurrence filters -/

/-- Seen prefixes inducing the same key-match condition give the same
first-occurrence filter. -/
theorem foK_congr_seen (key : Str → Str) :
    ∀ (L s1 s2 : List Str),
      (∀ w ∈ L, (∃ b ∈ s1, key b = key w) ↔ (∃ b ∈ s2, key b = key w)) →
      foK key s1 L = foK key s2 L := by
  intro L
  induction L with
  | nil => intro s1 s2 _; rfl
  | cons a rest ih =>
    intro s1 s2 hiff
    rw [foK, foK]
    have hany : (s1.any (fun b => key b == key a)) = (s2.any (fun b => key b == key a)) := by
      rcases h1 : s1.any (fun b => key b == key a) with _ | _
      · rcases h2 : s2.any (fun b => key b == key a) with _ | _
        · rfl
        · exfalso
          rw [List.any_eq_true] at h2
          obtain ⟨b, hb, hkb⟩ := h2
          have : ∃ b ∈ s1, key b = key a :=
            (hiff a (List.mem_cons_self a rest)).mpr ⟨b, hb, by simpa using hkb⟩
          obtain ⟨c, hc, hkc⟩ := this
          have : s1.any (fun b => key b == key a) = true :=
            List.any_eq_true.mpr ⟨c, hc, by simpa using hkc⟩
          rw [h1] at this
          exact Bool.noConfusion this
      · rw [List.any_eq_true] at h1
        obtain ⟨b, hb, hkb⟩ := h1
        have : ∃ b ∈ s2, key b = key a :=
          (hiff a (List.mem_cons_self a rest)).mp ⟨b, hb, by simpa using hkb⟩
        obtain ⟨c, hc, hkc⟩ := this
        exact (List.any_eq_true.mpr ⟨c, hc, by simpa using hkc⟩).symm
    rw [hany]
    rcases h2 : s2.any (fun b => key b == key a) with _ | _
    · rw [if_neg (by simp [h2]), if_neg (by simp [h2])]
      congr 1
      refine ih (a :: s1) (a :: s2) ?_
      intro w hw
      constructor
      · rintro ⟨b, hb, hkb⟩
        rcases List.mem_cons.mp hb with rfl | hb2
        · exact ⟨b, List.mem_cons_self b s2, hkb⟩
        · obtain ⟨c, hc, hkc⟩ := (hiff w (List.mem_cons_of_mem a hw)).mp ⟨b, hb2, hkb⟩
          exact ⟨c, List.mem_cons_of_mem a hc, hkc⟩
      · rintro ⟨b, hb, hkb⟩
        rcases List.mem_cons.mp hb with rfl | hb2
        · exact ⟨b, List.mem_cons_self b s1, hkb⟩
        · obtain ⟨c, hc, hkc⟩ := (hiff w (List.mem_cons_of_mem a hw)).mpr ⟨b, hb2, hkb⟩
          exact ⟨c, List.mem_cons_of_mem a hc, hkc⟩
    · rw [if_pos (by simp [h2]), if_pos (by simp [h2])]
      exact ih s1 s2 (fun w hw => hiff w (List.mem_cons_of_mem a hw))

/-- Moving the head of the seen prefix into a filter. -/
theorem foK_cons_seen (key : Str → Str) :
    ∀ (L seen : List Str) (s : Str),
      foK key (s :: seen) L = foK key seen (L.filter (fun w => !(key w == key s))) := by
  intro L
  induction L with
  | nil => intro seen s; rfl
  | cons a rest ih =>
    intro seen s
    by_cases hs : key a = key s
    · have hcond : ((s :: seen).any fun b => key b == key a) = true :=
        List.any_eq_true.mpr ⟨s, List.mem_cons_self s seen, by simp [hs]⟩
      rw [foK, if_pos hcond, List.filter_cons, if_neg (by simp [hs])]
      exact ih seen s
    · rw [List.filter_cons, if_pos (by simp [hs])]
      rcases ha : seen.any (fun b => key b == key a) with _ | _
      · rw [foK, if_neg (by
          simp only [List.any_cons, Bool.or_eq_true]
          rintro (h | h)
          · exact hs (beq_iff_eq.mp h).symm
          · rw [ha] at h; exact Bool.noConfusion h)]
        rw [foK, if_neg (by simp [ha])]
        congr 1
        have hswap : foK key (a :: s :: seen) rest = foK key (s :: a :: seen) rest := by
          refine foK_congr_seen key rest _ _ ?_
          intro w _
          constructor
          · rintro ⟨b, hb, hkb⟩
            refine ⟨b, ?_, hkb⟩
            simp only [List.mem_cons] at hb ⊢
            tauto
          · rintro ⟨b, hb, hkb⟩
            refine ⟨b, ?_, hkb⟩
            simp only [List.mem_cons] at hb ⊢
            tauto
        rw [hswap]
        exact ih (a :: seen) s
      · rw [foK, if_pos (by simp [ha]), foK, if_pos (by simp [ha])]
        exact ih seen s

/-- The seen prefix can be traded for a filter on the scanned list. -/
theorem foK_seen_filter (key : Str → Str) :
    ∀ (seen L : List Str),
      foK key seen L =
        foK key [] (L.filter (fun w => !(seen.any (fun b => key b == key w)))) := by
  intro seen
  induction seen with
  | nil =>
    intro L
    have : L.filter (fun w => !(([] : List Str).any (fun b => key b == key w))) = L := by
      simp
    rw [this]
  | cons s seen ih =>
    intro L
    rw [foK_cons_seen key L seen s, ih, List.filter_filter]
    congr 1
    refine List.filter_congr ?_
    intro w _
    by_cases hws : key s = key w
    · have h1 : (key w == key s) = true := beq_iff_eq.mpr hws.symm
      have h2 : ((s :: seen).any fun b => key b == key w) = true :=
        List.any_eq_true.mpr ⟨s, List.mem_cons_self s seen, beq_iff_eq.mpr hws⟩
      simp [h1, h2]
    · have h1 : (key w == key s) = false := by
        rcases h : key w == key s with _ | _
        · rfl
        · exact absurd (beq_iff_eq.mp h).symm hws
      have h2 : ((s :: seen).any fun b => key b == key w) =
          (seen.any fun b => key b == key w) := by
        have h3 : (key s == key w) = false := by
          rcases h : key s == key w with _ | _
          · rfl
          · exact absurd (beq_iff_eq.mp h) hws
        simp [List.any_cons, h3]
      simp [h1, h2]

end LieProlong

namespace LieProlong

/-! ### The dedup loop keeps first occurrences -/

/-- When the final element does not match the pivot, the scan is an
ordinary filter on the region before it. -/
theorem rmbl_filter (pk : Str) (z : Str) :
    ∀ (M : List Str), rmbl pk (M ++ [z]) = M.filter (fun w => !(sortKey w == pk)) ++ [z] := by
  intro M
  induction M with
  | nil => simp [rmbl]
  | cons m M ih =>
    rw [List.cons_append, rmbl_cons pk m (M ++ [z]) (by simp), List.filter_cons]
    by_cases hm : sortKey m = pk
    · rw [if_pos hm, if_neg (by simp [hm]), ih]
    · rw [if_neg hm, if_pos (by simp [hm]), ih]
      simp

/-- On any list whose final element's key differs from every earlier
element's key, the dedup loop keeps exactly the first occurrence of every
key (the final element being its own first occurrence). -/
theorem kfl_eq_firstOcc : ∀ (N : Nat) (L : List Str), L.length ≤ N →
    (∀ M z, L = M ++ [z] → ∀ w ∈ M, ¬ sortKey w = sortKey z) →
    kfl L = firstOcc L := by
  intro N
  induction N with
  | zero =>
    intro L hN _
    have : L = [] := List.eq_nil_of_length_eq_zero (by omega)
    rw [this, kfl]
    rfl
  | succ N ih =>
    intro L hN hlast
    match L with
    | [] => rw [kfl]; rfl
    | [a] => rw [kfl]; rfl
    | a :: b :: T =>
      rcases List.eq_nil_or_concat (b :: T) with h | ⟨M, z, hMz⟩
      · exact absurd h (by simp)
      rw [List.concat_eq_append] at hMz
      have hza : ¬ sortKey z = sortKey a := by
        intro h
        exact hlast (a :: M) z (by rw [hMz]; rfl) a (List.mem_cons_self a M) h.symm
      have hr : rmbl (sortKey a) (b :: T) =
          M.filter (fun w => !(sortKey w == sortKey a)) ++ [z] := by
        rw [hMz]
        exact rmbl_filter (sortKey a) z M
      have hlen2 : (M.filter (fun w => !(sortKey w == sortKey a)) ++ [z]).length ≤ N := by
        have h1 : (M.filter (fun w => !(sortKey w == sortKey a))).length ≤ M.length :=
          List.length_filter_le _ _
        have h2 : (b :: T).length = M.length + 1 := by rw [hMz]; simp
        simp only [List.length_append, List.length_cons, List.length_nil] at hN h2 ⊢
        omega
      have hlast2 : ∀ M2 z2, M.filter (fun w => !(sortKey w == sortKey a)) ++ [z] = M2 ++ [z2] →
          ∀ w ∈ M2, ¬ sortKey w = sortKey z2 := by
        intro M2 z2 heq w hw
        obtain ⟨hM2, hz2⟩ := List.append_inj' heq (by simp)
        have hz2' : z2 = z := by simpa using hz2.symm
        rw [← hM2] at hw
        have hwM : w ∈ M := List.mem_of_mem_filter hw
        rw [hz2']
        exact hlast (a :: M) z (by rw [hMz]; rfl) w (List.mem_cons_of_mem a hwM)
      have hkfl : kfl (a :: b :: T) =
          a :: firstOcc (M.filter (fun w => !(sortKey w == sortKey a)) ++ [z]) := by
        rw [kfl_cons a (b :: T) (by simp), hr]
        rw [ih _ hlen2 hlast2]
      rw [hkfl]
      have hfo : firstOcc (a :: b :: T) =
          a :: foK sortKey [a] (b :: T) := by
        rw [firstOcc, foK]
        simp
      rw [hfo]
      congr 1
      rw [foK_cons_seen sortKey (b :: T) [] a, hMz, List.filter_append, List.filter_cons]
      rw [if_pos (by simp [hza])]
      rfl

end LieProlong

namespace LieProlong

/-! ### Jet word lists -/

/-- Iterating `jet` appends every word over the label alphabet to every
dependent symbol, in block order. -/
theorem jetIter_eq_awStr (X U : List Str) :
    ∀ n, jetIter X U n = U.flatMap (fun u0 => (awStr X n).map (u0 ++ ·)) := by
  intro n
  induction n with
  | zero => simp [jetIter, awStr]
  | succ n ih =>
    rw [jetIter, ih, jet, awStr]
    rw [List.flatMap_assoc]
    refine congrArg _ (funext fun u0 => ?_)
    rw [List.flatMap_map, List.map_flatMap]
    refine congrArg _ (funext fun w => ?_)
    rw [List.map_map]
    simp [Function.comp_def, List.append_assoc]

/-- Over single-character labels the label words are the character words. -/
theorem awStr_single (A : List Char) :
    ∀ n, awStr (A.map (fun c => [c])) n = awc A n := by
  intro n
  induction n with
  | zero => rfl
  | succ n ih =>
    rw [awStr, awc, ih]
    refine congrArg _ (funext fun w => ?_)
    rw [List.map_map]
    rfl

/-- The word list can also be generated first letter outermost. -/
theorem awc_cons_char (A : List Char) :
    ∀ n, awc A (n+1) = A.flatMap (fun c => (awc A n).map (fun w => c :: w)) := by
  intro n
  induction n with
  | zero =>
    simp only [awc]
    induction A with
    | nil => rfl
    | cons c A ihA => simp_all [List.flatMap_cons]
  | succ n ih =>
    have hR : ∀ c : Char, (awc A (n+1)).map (fun w => c :: w)
        = (awc A n).flatMap (fun w => A.map (fun d => c :: (w ++ [d]))) := by
      intro c
      rw [show awc A (n+1) = (awc A n).flatMap (fun w => A.map (fun d => w ++ [d])) from rfl]
      rw [List.map_flatMap]
      refine congrArg _ (funext fun w => ?_)
      rw [List.map_map]
      rfl
    calc awc A (n+1+1)
        = (awc A (n+1)).flatMap (fun w => A.map (fun c => w ++ [c])) := rfl
      _ = (A.flatMap (fun c => (awc A n).map (fun w => c :: w))).flatMap
            (fun w => A.map (fun c => w ++ [c])) := by rw [← ih]
      _ = A.flatMap (fun c => ((awc A n).map (fun w => c :: w)).flatMap
            (fun w => A.map (fun c2 => w ++ [c2]))) := by rw [List.flatMap_assoc]
      _ = A.flatMap (fun c => (awc A n).flatMap (fun w => A.map (fun d => c :: (w ++ [d])))) := by
            refine congrArg _ (funext fun c => ?_)
            rw [List.flatMap_map]
            rfl
      _ = A.flatMap (fun c => (awc A (n+1)).map (fun w => c :: w)) := by
            refine congrArg _ (funext fun c => ?_)
            rw [hR c]

/-- Membership in the word list: exactly the words of the right length over
the alphabet. -/
theorem mem_awc (A : List Char) :
    ∀ n w, w ∈ awc A n ↔ w.length = n ∧ ∀ ch ∈ w, ch ∈ A := by
  intro n
  induction n with
  | zero =>
    intro w
    constructor
    · intro h
      rw [awc] at h
      simp at h
      simp [h]
    · intro ⟨h1, _⟩
      rw [awc]
      simp [List.eq_nil_of_length_eq_zero h1]
  | succ n ih =>
    intro w
    rw [awc, List.mem_flatMap]
    constructor
    · rintro ⟨w0, hw0, hw⟩
      rw [List.mem_map] at hw
      obtain ⟨c, hc, rfl⟩ := hw
      obtain ⟨hl, hmem⟩ := (ih w0).mp hw0
      refine ⟨by simp [hl], ?_⟩
      intro ch hch
      rcases List.mem_append.mp hch with h | h
      · exact hmem ch h
      · simp at h
        rw [h]
        exact hc
    · rintro ⟨hl, hmem⟩
      rcases List.eq_nil_or_concat w with rfl | ⟨w0, c, rfl⟩
      · simp at hl
      rw [List.concat_eq_append] at *
      refine ⟨w0, ?_, ?_⟩
      · refine (ih w0).mpr ⟨?_, ?_⟩
        · simp at hl
          omega
        · intro ch hch
          exact hmem ch (List.mem_append_left _ hch)
      · rw [List.mem_map]
        exact ⟨c, hmem c (List.mem_append_right _ (by simp)), rfl⟩

/-- Distinct letters generate pairwise distinct words. -/
theorem awc_nodup (A : List Char) (hA : A.Nodup) : ∀ n, (awc A n).Nodup := by
  intro n
  induction n with
  | zero => simp [awc]
  | succ n ih =>
    rw [awc, List.nodup_flatMap]
    refine ⟨?_, ?_⟩
    · intro w _
      exact hA.map (fun c d h => by simpa using List.append_inj_right h rfl)
    · refine ih.imp ?_
      intro w1 w2 hne
      intro x hx1 hx2
      rw [List.mem_map] at hx1 hx2
      obtain ⟨c1, _, rfl⟩ := hx1
      obtain ⟨c2, _, heq⟩ := hx2
      exact hne ((List.append_inj' heq (by simp)).1.symm)

end LieProlong

namespace LieProlong

/-! ### Canonical word lists -/

/-- Equation lemma: canonical words over the empty alphabet. -/
theorem sw_nil (n : Nat) : sw (n+1) [] = [] := by
  rw [sw]

/-- Equation lemma: canonical words of length zero. -/
theorem sw_zero (A : List Char) : sw 0 A = [[]] := by
  rw [sw]

/-- Equation lemma: canonical words split by whether they start with the
first letter. -/
theorem sw_cons (n : Nat) (c : Char) (A : List Char) :
    sw (n+1) (c :: A) = (sw n (c :: A)).map (fun w => c :: w) ++ sw (n+1) A := by
  rw [sw]

/-- Entries vanishing off a filter can be dropped before a `flatMap`. -/
theorem flatMap_filter_eq {α β : Type} (p : α → Bool) (f : α → List β) :
    ∀ (l : List α), (∀ x ∈ l, p x = false → f x = []) →
      l.flatMap f = (l.filter p).flatMap f := by
  intro l
  induction l with
  | nil => intro _; rfl
  | cons x xs ih =>
    intro h
    rw [List.flatMap_cons, List.filter_cons]
    rcases hx : p x with _ | _
    · rw [h x (List.mem_cons_self x xs) hx]
      have hcond : ¬ (p x = true) := by rw [hx]; simp
      simp only [List.nil_append, if_neg hcond]
      exact ih (fun y hy => h y (List.mem_cons_of_mem x hy))
    · rw [if_pos (by simp [hx]), List.flatMap_cons]
      rw [ih (fun y hy => h y (List.mem_cons_of_mem x hy))]

/-- Pointwise equal functions on the members give equal `flatMap`s. -/
theorem flatMap_congr_mem {α β : Type} (f g : α → List β) :
    ∀ (l : List α), (∀ x ∈ l, f x = g x) → l.flatMap f = l.flatMap g := by
  intro l
  induction l with
  | nil => intro _; rfl
  | cons x xs ih =>
    intro h
    rw [List.flatMap_cons, List.flatMap_cons, h x (List.mem_cons_self x xs),
      ih (fun y hy => h y (List.mem_cons_of_mem x hy))]

/-- Filtering away the words containing the first letter leaves the words
over the remaining letters. -/
theorem awc_filter_head (c : Char) (A : List Char) (hc : ¬ c ∈ A) :
    ∀ n, (awc (c :: A) n).filter (fun w => !(decide (c ∈ w))) = awc A n := by
  intro n
  induction n with
  | zero => simp [awc]
  | succ n ih =>
    rw [show awc (c :: A) (n+1)
        = (awc (c :: A) n).flatMap (fun w => (c :: A).map (fun d => w ++ [d])) from rfl]
    rw [List.filter_flatMap]
    have hsplit : ∀ w, ((c :: A).map (fun d => w ++ [d])).filter (fun w2 => !(decide (c ∈ w2)))
        = if c ∈ w then [] else A.map (fun d => w ++ [d]) := by
      intro w
      by_cases hw : c ∈ w
      · rw [if_pos hw]
        refine List.filter_eq_nil_iff.mpr ?_
        intro b hb
        rw [List.mem_map] at hb
        obtain ⟨d, _, rfl⟩ := hb
        simp [List.mem_append, hw]
      · rw [if_neg hw, List.map_cons, List.filter_cons, if_neg (by simp [List.mem_append, hw])]
        refine List.filter_eq_self.mpr ?_
        intro b hb
        rw [List.mem_map] at hb
        obtain ⟨d, hd, rfl⟩ := hb
        have hdc : ¬ d = c := fun h => hc (h ▸ hd)
        simp [List.mem_append, hw, hdc]
        exact fun h => hdc h.symm
    rw [flatMap_congr_mem _ _ _ (fun w _ => hsplit w)]
    have hvanish := flatMap_filter_eq (fun w => !(decide (c ∈ w)))
      (fun w => if c ∈ w then ([] : List (List Char)) else A.map (fun d => w ++ [d]))
      (awc (c :: A) n) ?hv
    case hv =>
      intro w _ hw
      show (if c ∈ w then ([] : List (List Char)) else A.map (fun d => w ++ [d])) = []
      rw [if_pos (by simpa using hw)]
    rw [hvanish, ih]
    rw [show awc A (n+1) = (awc A n).flatMap (fun w => A.map (fun d => w ++ [d])) from rfl]
    refine flatMap_congr_mem _ _ _ ?_
    intro w hw
    have hwA : ∀ ch ∈ w, ch ∈ A := ((mem_awc A n w).mp hw).2
    have hcw : ¬ c ∈ w := fun h => hc (hwA c h)
    show (if c ∈ w then ([] : List (List Char)) else A.map (fun d => w ++ [d]))
      = A.map (fun d => w ++ [d])
    rw [if_neg hcw]

end LieProlong

namespace LieProlong

/-! ### First-occurrence filters: append, map and key congruence -/

/-- Splitting a first-occurrence filter at an append: the right part is
scanned with the whole left part in the seen prefix. -/
theorem foK_append (key : Str → Str) :
    ∀ (P Q seen : List Str),
      foK key seen (P ++ Q) = foK key seen P ++ foK key (P.reverse ++ seen) Q := by
  intro P
  induction P with
  | nil => intro Q seen; simp [foK]
  | cons p P ih =>
    intro Q seen
    rw [List.cons_append, foK, foK]
    rcases hp : seen.any (fun b => key b == key p) with _ | _
    · rw [if_neg (by simp [hp]), if_neg (by simp [hp]), List.cons_append]
      congr 1
      rw [ih Q (p :: seen)]
      congr 1
      rw [List.reverse_cons, List.append_assoc]
      rfl
    · rw [if_pos (by simp [hp]), if_pos (by simp [hp]), ih Q seen]
      congr 1
      refine foK_congr_seen key Q _ _ ?_
      intro w _
      rw [List.reverse_cons, List.append_assoc]
      constructor
      · rintro ⟨b, hb, hkb⟩
        rcases List.mem_append.mp hb with h | h
        · exact ⟨b, List.mem_append_left _ h, hkb⟩
        · exact ⟨b, List.mem_append_right _ (List.mem_cons_of_mem p (by simpa using h)), hkb⟩
      · rintro ⟨b, hb, hkb⟩
        rcases List.mem_append.mp hb with h | h
        · exact ⟨b, List.mem_append_left _ h, hkb⟩
        · rcases List.mem_cons.mp (by simpa using h) with rfl | h2
          · obtain ⟨s, hs, hks⟩ := List.any_eq_true.mp hp
            exact ⟨s, List.mem_append_right _ (by simpa using hs), (beq_iff_eq.mp hks).trans hkb⟩
          · exact ⟨b, List.mem_append_right _ (by simpa using h2), hkb⟩

/-- A first-occurrence filter commutes with mapping, the key composing with
the map. -/
theorem foK_map (key : Str → Str) (f : Str → Str) :
    ∀ (L seen : List Str),
      foK key (seen.map f) (L.map f) = (foK (fun w => key (f w)) seen L).map f := by
  intro L
  induction L with
  | nil => intro seen; rfl
  | cons a rest ih =>
    intro seen
    rw [List.map_cons, foK, foK]
    have hany : ((seen.map f).any (fun b => key b == key (f a)))
        = (seen.any (fun b => key (f b) == key (f a))) := by
      rw [List.any_map]
      rfl
    rw [hany]
    rcases h : seen.any (fun b => key (f b) == key (f a)) with _ | _
    · rw [if_neg (by simp [h]), if_neg (by simp [h]), List.map_cons]
      congr 1
      rw [← List.map_cons f a seen, ih (a :: seen)]
    · rw [if_pos (by simp [h]), if_pos (by simp [h]), ih seen]

/-- Keys inducing the same equivalence on the involved elements give the
same first-occurrence filter. -/
theorem foK_congr_key (k1 k2 : Str → Str) :
    ∀ (L seen : List Str),
      (∀ a b, (a ∈ seen ∨ a ∈ L) → (b ∈ seen ∨ b ∈ L) → (k1 a = k1 b ↔ k2 a = k2 b)) →
      foK k1 seen L = foK k2 seen L := by
  intro L
  induction L with
  | nil => intro seen _; rfl
  | cons a rest ih =>
    intro seen hk
    rw [foK, foK]
    have hany : (seen.any (fun b => k1 b == k1 a)) = (seen.any (fun b => k2 b == k2 a)) := by
      rcases h1 : seen.any (fun b => k1 b == k1 a) with _ | _
      · rcases h2 : seen.any (fun b => k2 b == k2 a) with _ | _
        · rfl
        · obtain ⟨b, hb, hkb⟩ := List.any_eq_true.mp h2
          have : k1 b = k1 a := (hk b a (Or.inl hb) (Or.inr (by simp))).mpr (beq_iff_eq.mp hkb)
          have h1' : seen.any (fun b => k1 b == k1 a) = true :=
            List.any_eq_true.mpr ⟨b, hb, by simpa using this⟩
          rw [h1] at h1'
          exact Bool.noConfusion h1'
      · obtain ⟨b, hb, hkb⟩ := List.any_eq_true.mp h1
        have : k2 b = k2 a := (hk b a (Or.inl hb) (Or.inr (by simp))).mp (beq_iff_eq.mp hkb)
        exact (List.any_eq_true.mpr ⟨b, hb, by simpa using this⟩).symm
    rw [hany]
    rcases h2 : seen.any (fun b => k2 b == k2 a) with _ | _
    · rw [if_neg (by simp), if_neg (by simp)]
      congr 1
      refine ih (a :: seen) ?_
      intro x y hx hy
      refine hk x y ?_ ?_
      · rcases hx with hx | hx
        · rcases List.mem_cons.mp hx with rfl | h
          · exact Or.inr (by simp)
          · exact Or.inl h
        · exact Or.inr (List.mem_cons_of_mem a hx)
      · rcases hy with hy | hy
        · rcases List.mem_cons.mp hy with rfl | h
          · exact Or.inr (by simp)
          · exact Or.inl h
        · exact Or.inr (List.mem_cons_of_mem a hy)
    · rw [if_pos rfl, if_pos rfl]
      refine ih seen ?_
      intro x y hx hy
      refine hk x y ?_ ?_
      · rcases hx with hx | hx
        · exact Or.inl hx
        · exact Or.inr (List.mem_cons_of_mem a hx)
      · rcases hy with hy | hy
        · exact Or.inl hy
        · exact Or.inr (List.mem_cons_of_mem a hy)

end LieProlong

namespace LieProlong

/-! ### First occurrences of the word enumeration are canonical words -/

/-- Core enumeration lemma: scanning all words of length `m` in generation
order and keeping the first occurrence of every character multiset yields
exactly the canonical (nondecreasing) words. -/
theorem foK_awc : ∀ (N m : Nat) (A : List Char), m + A.length ≤ N → A.Nodup →
    foK sortKey [] (awc A m) = sw m A := by
  intro N
  induction N with
  | zero =>
    intro m A hN _
    have hm : m = 0 := by omega
    subst hm
    rw [sw_zero]
    rfl
  | succ N ih =>
    intro m A hN hA
    match m, A with
    | 0, A =>
      rw [sw_zero]
      rfl
    | m+1, [] =>
      rw [sw_nil]
      have hempty : awc ([] : List Char) (m+1) = [] := by
        rw [show awc ([] : List Char) (m+1)
            = (awc [] m).flatMap (fun w => ([] : List Char).map (fun d => w ++ [d])) from rfl]
        simp
      rw [hempty]
      rfl
    | m+1, c :: A2 =>
      have hcA2 : ¬ c ∈ A2 := (List.nodup_cons.mp hA).1
      have hA2 : A2.Nodup := (List.nodup_cons.mp hA).2
      rw [awc_cons_char (c :: A2) m, List.flatMap_cons, foK_append]
      have hP : foK sortKey [] ((awc (c :: A2) m).map (fun w => c :: w))
          = (foK sortKey [] (awc (c :: A2) m)).map (fun w => c :: w) := by
        have hmap := foK_map sortKey (fun w => c :: w) (awc (c :: A2) m) []
        rw [List.map_nil] at hmap
        rw [hmap]
        congr 1
        refine foK_congr_key _ _ _ [] ?_
        intro a b _ _
        constructor
        · intro h
          exact sortKey_eq_iff.mpr (sortKey_eq_iff.mp h).cons_inv
        · intro h
          exact sortKey_eq_iff.mpr (List.Perm.cons c (sortKey_eq_iff.mp h))
      have hQ : foK sortKey
          (((awc (c :: A2) m).map (fun w => c :: w)).reverse ++ [])
          (A2.flatMap (fun d => (awc (c :: A2) m).map (fun w => d :: w))) = sw (m+1) A2 := by
        rw [foK_seen_filter]
        have hpred : ∀ w ∈ A2.flatMap (fun d => (awc (c :: A2) m).map (fun w => d :: w)),
            (!((((awc (c :: A2) m).map (fun w => c :: w)).reverse ++ []).any
              (fun b => sortKey b == sortKey w))) = (!(decide (c ∈ w))) := by
          intro w hw
          rw [List.mem_flatMap] at hw
          obtain ⟨d, hd, hw⟩ := hw
          rw [List.mem_map] at hw
          obtain ⟨w0, hw0, rfl⟩ := hw
          obtain ⟨hw0len, hw0mem⟩ := (mem_awc (c :: A2) m w0).mp hw0
          by_cases hc : c ∈ d :: w0
          · have hb : (c :: ((d :: w0).erase c)) ∈
                ((awc (c :: A2) m).map (fun w => c :: w)) := by
              rw [List.mem_map]
              refine ⟨(d :: w0).erase c, ?_, rfl⟩
              refine (mem_awc (c :: A2) m _).mpr ⟨?_, ?_⟩
              · rw [List.length_erase_of_mem hc]
                simp [hw0len]
              · intro ch hch
                have := List.mem_of_mem_erase hch
                rcases List.mem_cons.mp this with rfl | h2
                · exact List.mem_cons_of_mem c hd
                · exact hw0mem ch h2
            have hkey : sortKey (c :: ((d :: w0).erase c)) = sortKey (d :: w0) :=
              sortKey_eq_iff.mpr (List.perm_cons_erase hc).symm
            have hany : ((((awc (c :: A2) m).map (fun w => c :: w)).reverse ++ []).any
                (fun b => sortKey b == sortKey (d :: w0))) = true := by
              refine List.any_eq_true.mpr ⟨c :: ((d :: w0).erase c), ?_, by simpa using hkey⟩
              rw [List.append_nil, List.mem_reverse]
              exact hb
            rw [hany]
            simp [hc]
          · have hany : ((((awc (c :: A2) m).map (fun w => c :: w)).reverse ++ []).any
                (fun b => sortKey b == sortKey (d :: w0))) = false := by
              rcases h : (((awc (c :: A2) m).map (fun w => c :: w)).reverse ++ []).any
                  (fun b => sortKey b == sortKey (d :: w0)) with _ | _
              · exact h
              · exfalso
                obtain ⟨b, hb, hkb⟩ := List.any_eq_true.mp h
                rw [List.append_nil, List.mem_reverse, List.mem_map] at hb
                obtain ⟨w1, _, rfl⟩ := hb
                have hperm : (c :: w1).Perm (d :: w0) := sortKey_eq_iff.mp (by simpa using hkb)
                exact hc (hperm.mem_iff.mp (by simp))
            rw [hany]
            simp [hc]
        rw [List.filter_congr hpred]
        have hfilter : (A2.flatMap (fun d => (awc (c :: A2) m).map (fun w => d :: w))).filter
            (fun w => !(decide (c ∈ w))) = awc A2 (m+1) := by
          rw [List.filter_flatMap]
          have hper : ∀ d ∈ A2,
              ((fun a => List.filter (fun w => !(decide (c ∈ w)))
                ((awc (c :: A2) m).map (fun w => a :: w))) d)
              = ((fun a => (awc A2 m).map (fun w => a :: w)) d) := by
            intro d hd
            have hcd : ¬ c = d := fun h => hcA2 (h ▸ hd)
            show ((awc (c :: A2) m).map (fun w => d :: w)).filter (fun w => !(decide (c ∈ w)))
              = (awc A2 m).map (fun w => d :: w)
            rw [List.filter_map]
            have hcong : (awc (c :: A2) m).filter
                ((fun w => !(decide (c ∈ w))) ∘ (fun w => d :: w))
                = (awc (c :: A2) m).filter (fun w => !(decide (c ∈ w))) := by
              refine List.filter_congr ?_
              intro w _
              show (!(decide (c ∈ d :: w))) = (!(decide (c ∈ w)))
              simp [List.mem_cons, hcd]
            rw [hcong, awc_filter_head c A2 hcA2 m]
          rw [flatMap_congr_mem _ _ A2 hper]
          rw [← awc_cons_char A2 m]
        rw [hfilter]
        refine ih (m+1) A2 ?_ hA2
        simp only [List.length_cons] at hN
        omega
      rw [hP, hQ, ih m (c :: A2) (by simp only [List.length_cons] at hN ⊢; omega) hA, sw_cons]

end LieProlong

namespace LieProlong

/-! ### Counting canonical words; block decomposition -/

/-- Counting canonical words: combinations with repetition. -/
theorem sw_length : ∀ (n : Nat) (A : List Char),
    (sw n A).length = Nat.multichoose A.length n := by
  have H : ∀ (N n : Nat) (A : List Char), n + A.length ≤ N →
      (sw n A).length = Nat.multichoose A.length n := by
    intro N
    induction N with
    | zero =>
      intro n A hN
      have hn : n = 0 := by omega
      subst hn
      rw [sw_zero, Nat.multichoose_zero_right]
      rfl
    | succ N ih =>
      intro n A hN
      match n, A with
      | 0, A => rw [sw_zero, Nat.multichoose_zero_right]; rfl
      | n+1, [] =>
        rw [sw_nil]
        show (0 : Nat) = Nat.multichoose 0 (n+1)
        rw [Nat.multichoose_zero_succ]
      | n+1, c :: A2 =>
        rw [sw_cons, List.length_append, List.length_map]
        rw [ih n (c :: A2) (by simp only [List.length_cons] at hN ⊢; omega)]
        rw [ih (n+1) A2 (by simp only [List.length_cons] at hN ⊢; omega)]
        rw [List.length_cons, Nat.multichoose_succ_succ]
        omega
  exact fun n A => H (n + A.length) n A (le_refl _)

/-- The word enumeration ends with the all-last-letter word, whose
character multiset is met by no other word. -/
theorem awc_last_replicate (A : List Char) (m : Nat) (hA : A ≠ [] ∨ m = 0) :
    ∃ W z0, awc A m = W ++ [z0] ∧ (∀ w : List Char, w.Perm z0 → w = z0) ∧ z0 ∈ awc A m := by
  match m with
  | 0 =>
    refine ⟨[], [], rfl, ?_, by rw [awc]; simp⟩
    intro w hw
    exact List.Perm.eq_nil hw
  | m+1 =>
    rcases hA with hA | hA
    swap
    · exact absurd hA (by omega)
    rcases List.eq_nil_or_concat A with rfl | ⟨A0, a9, rfl⟩
    · exact absurd rfl hA
    rw [List.concat_eq_append] at *
    have key : ∀ k, ∃ W, awc (A0 ++ [a9]) k = W ++ [List.replicate k a9] := by
      intro k
      induction k with
      | zero => exact ⟨[], rfl⟩
      | succ k ihk =>
        obtain ⟨W, hW⟩ := ihk
        rw [show awc (A0 ++ [a9]) (k+1)
            = (awc (A0 ++ [a9]) k).flatMap
              (fun w => (A0 ++ [a9]).map (fun d => w ++ [d])) from rfl, hW]
        rw [List.flatMap_append, List.flatMap_singleton, List.map_append, List.map_singleton]
        refine ⟨(W.flatMap fun w => (A0 ++ [a9]).map (fun d => w ++ [d])) ++
          (A0.map fun d => List.replicate k a9 ++ [d]), ?_⟩
        have : List.replicate k a9 ++ [a9] = List.replicate (k+1) a9 :=
          (List.replicate_succ' k a9).symm
        rw [this, List.append_assoc]
    obtain ⟨W, hW⟩ := key (m+1)
    refine ⟨W, List.replicate (m+1) a9, hW, ?_, by rw [hW]; simp⟩
    intro w hw
    refine List.eq_replicate.mpr ⟨by simpa using hw.length_eq, ?_⟩
    intro b hb
    exact List.eq_of_mem_replicate (hw.mem_iff.mp hb)

/-- First occurrences over the per-dependent-variable blocks: each block
filters independently because dependent heads separate the multisets. -/
theorem foK_jetBlocks (Xc : List Char) (n : Nat) (hX : Xc.Nodup) :
    ∀ (Ucl : List Char), Ucl.Nodup → (∀ u ∈ Ucl, ¬ u ∈ Xc) →
    foK sortKey [] (Ucl.flatMap (fun uc => (awc Xc n).map (fun w => uc :: w)))
      = Ucl.flatMap (fun uc => (sw n Xc).map (fun w => uc :: w)) := by
  intro Ucl
  induction Ucl with
  | nil => intro _ _; rfl
  | cons u9 Ucl ih =>
    intro hnd hdisj
    rw [List.flatMap_cons, foK_append]
    have hP : foK sortKey [] ((awc Xc n).map (fun w => u9 :: w))
        = (sw n Xc).map (fun w => u9 :: w) := by
      have hmap := foK_map sortKey (fun w => u9 :: w) (awc Xc n) []
      rw [List.map_nil] at hmap
      rw [hmap]
      have hck : foK (fun w => sortKey (u9 :: w)) [] (awc Xc n)
          = foK sortKey [] (awc Xc n) := by
        refine foK_congr_key _ _ _ [] ?_
        intro a b _ _
        constructor
        · intro h
          exact sortKey_eq_iff.mpr (sortKey_eq_iff.mp h).cons_inv
        · intro h
          exact sortKey_eq_iff.mpr (List.Perm.cons u9 (sortKey_eq_iff.mp h))
      rw [hck, foK_awc (n + Xc.length) n Xc (le_refl _) hX]
    rw [hP]
    have hrest : foK sortKey
        (((awc Xc n).map (fun w => u9 :: w)).reverse ++ [])
        (Ucl.flatMap (fun uc => (awc Xc n).map (fun w => uc :: w)))
        = Ucl.flatMap (fun uc => (sw n Xc).map (fun w => uc :: w)) := by
      rw [foK_seen_filter]
      have hpred : ∀ w ∈ Ucl.flatMap (fun uc => (awc Xc n).map (fun w => uc :: w)),
          (!((((awc Xc n).map (fun w => u9 :: w)).reverse ++ []).any
            (fun b => sortKey b == sortKey w))) = true := by
        intro w hw
        rw [List.mem_flatMap] at hw
        obtain ⟨uc, huc, hw⟩ := hw
        rw [List.mem_map] at hw
        obtain ⟨w0, hw0, rfl⟩ := hw
        have hany : ((((awc Xc n).map (fun w => u9 :: w)).reverse ++ []).any
            (fun b => sortKey b == sortKey (uc :: w0))) = false := by
          rcases h : (((awc Xc n).map (fun w => u9 :: w)).reverse ++ []).any
              (fun b => sortKey b == sortKey (uc :: w0)) with _ | _
          · exact h
          · exfalso
            obtain ⟨b, hb, hkb⟩ := List.any_eq_true.mp h
            rw [List.append_nil, List.mem_reverse, List.mem_map] at hb
            obtain ⟨w1, hw1, rfl⟩ := hb
            have hperm : (u9 :: w1).Perm (uc :: w0) := sortKey_eq_iff.mp (by simpa using hkb)
            have hu9mem : u9 ∈ uc :: w0 := hperm.mem_iff.mp (by simp)
            rcases List.mem_cons.mp hu9mem with h9 | h9
            · have : ¬ u9 ∈ Ucl := (List.nodup_cons.mp hnd).1
              exact this (h9 ▸ huc)
            · have hw0X : ∀ ch ∈ w0, ch ∈ Xc := ((mem_awc Xc n w0).mp hw0).2
              exact hdisj u9 (List.mem_cons_self u9 Ucl) (hw0X u9 h9)
        rw [hany]
        rfl
      rw [List.filter_congr hpred, List.filter_eq_self.mpr (by intro a _; rfl)]
      exact ih (List.nodup_cons.mp hnd).2 (fun u hu => hdisj u (List.mem_cons_of_mem u9 hu))
    rw [hrest, List.flatMap_cons]


/-- No words of positive length over an empty alphabet. -/
theorem awc_nil_succ (m : Nat) : awc ([] : List Char) (m+1) = [] := by
  rw [show awc ([] : List Char) (m+1)
      = (awc [] m).flatMap (fun w => ([] : List Char).map (fun d => w ++ [d])) from rfl]
  simp

/-- The jet word list over single-character labels. -/
theorem jetIter_single (Xc Uc : List Char) (n : Nat) :
    jetIter (Xc.map (fun c => [c])) (Uc.map (fun c => [c])) n
      = Uc.flatMap (fun uc => (awc Xc n).map (fun w => uc :: w)) := by
  rw [jetIter_eq_awStr, awStr_single, List.flatMap_map]
  rfl

/-- The jet word list has no duplicate symbol texts when the labels are
distinct. -/
theorem jetWords_nodup (Xc Uc : List Char) (n : Nat) (hX : Xc.Nodup) (hU : Uc.Nodup) :
    (Uc.flatMap (fun uc => (awc Xc n).map (fun w => uc :: w))).Nodup := by
  rw [List.nodup_flatMap]
  constructor
  · intro uc _
    exact (awc_nodup Xc hX n).map (fun a b h => List.tail_eq_of_cons_eq h)
  · refine hU.imp ?_
    intro u1 u2 hne x hx1 hx2
    rw [List.mem_map] at hx1 hx2
    obtain ⟨w1, _, rfl⟩ := hx1
    obtain ⟨w2, _, heq⟩ := hx2
    exact hne (List.head_eq_of_cons_eq heq.symm)

/-- Characterization of `njet` for distinct single-character labels: one
canonical symbol per dependent variable and character multiset, in
generation order. -/
theorem njetChar (Xc Uc : List Char) (n : Nat) (hX : Xc.Nodup) (hU : Uc.Nodup)
    (hdisj : ∀ u ∈ Uc, ¬ u ∈ Xc) :
    njet (Xc.map (fun c => [c])) (Uc.map (fun c => [c])) n
      = Uc.flatMap (fun uc => (sw n Xc).map (fun w => uc :: w)) := by
  have hndL : (jetIter (Xc.map (fun c => [c])) (Uc.map (fun c => [c])) n).Nodup := by
    rw [jetIter_single]
    exact jetWords_nodup Xc Uc n hX hU
  rw [njet_eq_kfl _ _ _ hndL, jetIter_single]
  rcases List.eq_nil_or_concat Uc with rfl | ⟨Uc0, u9, rfl⟩
  · simp only [List.flatMap_nil]
    rw [kfl_short [] (by simp)]
  rw [List.concat_eq_append] at *
  by_cases hdeg : Xc = [] ∧ n ≠ 0
  · obtain ⟨rfl, hn⟩ := hdeg
    obtain ⟨m, rfl⟩ := Nat.exists_eq_succ_of_ne_zero hn
    rw [awc_nil_succ, sw_nil]
    have h1 : ((Uc0 ++ [u9]).flatMap fun uc => List.map (fun w => uc :: w)
        ([] : List (List Char))) = [] := by simp
    rw [h1, kfl_short [] (by simp)]
  · have hA : Xc ≠ [] ∨ n = 0 := by
      by_cases h : Xc = []
      · right
        by_contra hn
        exact hdeg ⟨h, hn⟩
      · left; exact h
    obtain ⟨W, z0, hWz, hz0sing, hz0mem⟩ := awc_last_replicate Xc n hA
    have hdecomp : ((Uc0 ++ [u9]).flatMap fun uc => List.map (fun w => uc :: w) (awc Xc n))
        = ((Uc0.flatMap fun uc => List.map (fun w => uc :: w) (awc Xc n))
            ++ W.map (fun w => u9 :: w)) ++ [u9 :: z0] := by
      rw [List.flatMap_append, List.flatMap_singleton, hWz, List.map_append, List.map_singleton]
      rw [List.append_assoc]
    have hzsing : ∀ w ∈ ((Uc0 ++ [u9]).flatMap fun uc => List.map (fun w => uc :: w) (awc Xc n)),
        sortKey w = sortKey (u9 :: z0) → w = u9 :: z0 := by
      intro w hw hkey
      rw [List.mem_flatMap] at hw
      obtain ⟨uc, huc, hw⟩ := hw
      rw [List.mem_map] at hw
      obtain ⟨w0, hw0, rfl⟩ := hw
      have hperm : (uc :: w0).Perm (u9 :: z0) := sortKey_eq_iff.mp hkey
      have hucmem : uc ∈ u9 :: z0 := hperm.mem_iff.mp (by simp)
      have huc9 : uc = u9 := by
        rcases List.mem_cons.mp hucmem with h | h
        · exact h
        · exfalso
          have hz0X : ∀ ch ∈ z0, ch ∈ Xc := ((mem_awc Xc n z0).mp hz0mem).2
          exact hdisj uc huc (hz0X uc h)
      subst huc9
      have hw0p : w0.Perm z0 := hperm.cons_inv
      rw [hz0sing w0 hw0p]
    have hlastU : ∀ M z', ((Uc0 ++ [u9]).flatMap fun uc =>
        List.map (fun w => uc :: w) (awc Xc n)) = M ++ [z'] →
        ∀ w ∈ M, ¬ sortKey w = sortKey z' := by
      intro M z' heq w hw hkey
      have heq2 : ((Uc0.flatMap fun uc => List.map (fun w => uc :: w) (awc Xc n))
          ++ W.map (fun w => u9 :: w)) ++ [u9 :: z0] = M ++ [z'] := by
        rw [← hdecomp, heq]
      obtain ⟨hM, hz⟩ := List.append_inj' heq2 (by simp)
      have hz' : z' = u9 :: z0 := by simpa using hz.symm
      have hwL : w ∈ ((Uc0 ++ [u9]).flatMap fun uc =>
          List.map (fun w => uc :: w) (awc Xc n)) := by
        rw [heq]
        exact List.mem_append_left _ hw
      have hwz : w = u9 :: z0 := hzsing w hwL (by rw [← hz']; exact hkey)
      have hndM : (M ++ [z']).Nodup := by
        have h := hndL
        rw [jetIter_single, heq] at h
        exact h
      have hnotmem : ¬ z' ∈ M := by
        intro hmem
        have hd := (List.nodup_append.mp hndM).2.2
        exact hd hmem (by simp)
      refine hnotmem ?_
      rw [hz', ← hwz]
      exact hw
    rw [kfl_eq_firstOcc (((Uc0 ++ [u9]).flatMap fun uc =>
        List.map (fun w => uc :: w) (awc Xc n)).length) _ (le_refl _) hlastU]
    rw [firstOcc]
    exact foK_jetBlocks Xc n hX (Uc0 ++ [u9]) hU hdisj

/-- C2: for distinct single-character independent labels `Xc` (p = |Xc| ≥ 1),
distinct single-character dependent labels `Uc` (q = |Uc| ≥ 1) disjoint from
`Xc`, and any order k ≥ 0, `njet` yields exactly C(p+k-1, k) distinct symbols
per dependent variable, i.e. q·C(p+k-1,k) in total; in particular p = 2, k = 2
gives the three symbols uxx, uxy, uyy. -/
theorem c2_jet_count (Xc Uc : List Char) (k : Nat) (hX : Xc.Nodup) (hU : Uc.Nodup)
    (hdisj : ∀ u ∈ Uc, ¬ u ∈ Xc) (hp : 1 ≤ Xc.length) (hq : 1 ≤ Uc.length) :
    (njet (Xc.map (fun c => [c])) (Uc.map (fun c => [c])) k).length
      = Uc.length * Nat.choose (Xc.length + k - 1) k
    ∧ njet [['x'],['y']] [['u']] 2 = [['u','x','x'],['u','x','y'],['u','y','y']] := by
  refine ⟨?_, by rfl⟩
  rw [njetChar Xc Uc k hX hU hdisj, List.length_flatMap]
  have hlen : (Uc.map fun uc => ((sw k Xc).map (fun w => uc :: w)).length)
      = List.replicate Uc.length (Nat.choose (Xc.length + k - 1) k) := by
    rw [← List.map_const']
    refine List.map_congr_left ?_
    intro uc _
    rw [List.length_map, sw_length, Nat.multichoose_eq]
  simp only [Function.comp_def]
  rw [hlen, List.sum_replicate, smul_eq_mul]

theorem c2_witness :
    (njet ((['x','y'] : List Char).map (fun c => [c]))
        ((['u'] : List Char).map (fun c => [c])) 2).length
      = (['u'] : List Char).length
          * Nat.choose ((['x','y'] : List Char).length + 2 - 1) 2
    ∧ njet [['x'],['y']] [['u']] 2 = [['u','x','x'],['u','x','y'],['u','y','y']] :=
  c2_jet_count ['x','y'] ['u'] 2 (by decide) (by decide) (by decide)
    (by decide) (by decide)

end LieProlong

namespace LieProlong

/-! ### C5: groundwork -/

theorem diff_eval_zero (s : Str) (ρ : Str → Int) :
    ∀ (P : Expr), ¬ s ∈ symList P → eval ρ (diff P s) = 0 := by
  intro P
  induction P with
  | const n => intro _; rfl
  | sym t =>
    intro h
    have ht : ¬ t = s := by
      intro he
      exact h (by simp [symList, he])
    simp [diff, ht, eval]
  | add a b iha ihb =>
    intro h
    simp only [symList, List.mem_append] at h
    push_neg at h
    simp [diff, eval, iha h.1, ihb h.2]
  | sub a b iha ihb =>
    intro h
    simp only [symList, List.mem_append] at h
    push_neg at h
    simp [diff, eval, iha h.1, ihb h.2]
  | mul a b iha ihb =>
    intro h
    simp only [symList, List.mem_append] at h
    push_neg at h
    simp [diff, eval, iha h.1, ihb h.2]

theorem ilsum_add {α : Type} (L : List α) (f g : α → Int) :
    (L.map (fun t => f t + g t)).sum = (L.map f).sum + (L.map g).sum := by
  induction L with
  | nil => rfl
  | cons a L ih =>
    simp only [List.map_cons, List.sum_cons, ih]
    ring

theorem ilsum_comm {α β : Type} (L : List α) (M : List β) (f : α → β → Int) :
    (L.map (fun t => (M.map (fun s => f t s)).sum)).sum
      = (M.map (fun s => (L.map (fun t => f t s)).sum)).sum := by
  induction L with
  | nil => simp
  | cons a L ih =>
    simp only [List.map_cons, List.sum_cons, ih]
    rw [ilsum_add M (fun s => f a s) (fun s => (L.map (fun t => f t s)).sum)]

theorem ilsum_delta (z : Str) (g : Str → Int) :
    ∀ (L : List Str), L.Nodup →
      (L.map (fun t => (if z = t then (1:Int) else 0) * g t)).sum
        = if z ∈ L then g z else 0 := by
  intro L
  induction L with
  | nil => intro _; simp
  | cons a L ih =>
    intro hnd
    rw [List.map_cons, List.sum_cons, ih (List.nodup_cons.mp hnd).2]
    by_cases hz : z = a
    · subst hz
      have hz2 : ¬ z ∈ L := (List.nodup_cons.mp hnd).1
      simp [hz2]
    · have h1 : (if z = a then (1:Int) else 0) = 0 := by simp [hz]
      rw [h1, zero_mul, zero_add]
      have h2 : (z ∈ a :: L) ↔ z ∈ L := by simp [List.mem_cons, hz]
      simp [h2]

theorem foK_covers (key : Str → Str) :
    ∀ (L : List Str) (seen : List Str) (z : Str), z ∈ L →
      seen.any (fun b => key b == key z) = false →
      ∃ t ∈ foK key seen L, key t = key z := by
  intro L
  induction L with
  | nil =>
    intro seen z hz _
    exact absurd hz (by simp)
  | cons a L ih =>
    intro seen z hz hseen
    simp only [foK]
    by_cases ha : seen.any (fun b => key b == key a) = true
    · rw [if_pos ha]
      rcases List.mem_cons.mp hz with rfl | hz2
      · rw [hseen] at ha
        exact absurd ha (by simp)
      · exact ih seen z hz2 hseen
    · rw [if_neg ha]
      rcases List.mem_cons.mp hz with rfl | hz2
      · exact ⟨z, by simp, rfl⟩
      · by_cases hk : key a = key z
        · exact ⟨a, by simp, hk⟩
        · have hseen2 : (a :: seen).any (fun b => key b == key z) = false := by
            simp only [List.any_cons, hseen, Bool.or_false]
            simpa using hk
          obtain ⟨t, ht, hkt⟩ := ih (a :: seen) z hz2 hseen2
          exact ⟨t, by simp [ht], hkt⟩

theorem foK_any_false (key : Str → Str) :
    ∀ (L seen : List Str) (b : Str), b ∈ foK key seen L →
      seen.any (fun x => key x == key b) = false := by
  intro L
  induction L with
  | nil =>
    intro seen b hb
    exact absurd hb (by simp [foK])
  | cons a L ih =>
    intro seen b hb
    simp only [foK] at hb
    by_cases ha : seen.any (fun x => key x == key a) = true
    · rw [if_pos ha] at hb
      exact ih seen b hb
    · rw [if_neg ha] at hb
      rcases List.mem_cons.mp hb with rfl | hb2
      · exact Bool.eq_false_iff.mpr ha
      · have h := ih (a :: seen) b hb2
        simp only [List.any_cons, Bool.or_eq_false_iff] at h
        exact h.2

theorem foK_pairwise (key : Str → Str) :
    ∀ (L seen : List Str), (foK key seen L).Pairwise (fun a b => key a ≠ key b) := by
  intro L
  induction L with
  | nil => intro seen; simp [foK]
  | cons a L ih =>
    intro seen
    simp only [foK]
    by_cases ha : seen.any (fun b => key b == key a) = true
    · rw [if_pos ha]
      exact ih seen
    · rw [if_neg ha]
      refine List.Pairwise.cons ?_ (ih (a :: seen))
      intro b hb hk
      have h := foK_any_false key L (a :: seen) b hb
      simp only [List.any_cons, Bool.or_eq_false_iff] at h
      have : (key a == key b) = false := h.1
      simp only [beq_eq_false_iff_ne, ne_eq] at this
      exact this hk

theorem sw_nodup (A : List Char) (hA : A.Nodup) (m : Nat) : (sw m A).Nodup := by
  have h := foK_awc (m + A.length) m A (le_refl _) hA
  rw [← h]
  exact (foK_pairwise sortKey (awc A m) []).imp (fun hk he => hk (by rw [he]))

theorem sw_spec : ∀ (n : Nat) (A : List Char), A.Pairwise (· ≤ ·) →
    ∀ w ∈ sw n A, w.length = n ∧ (∀ c ∈ w, c ∈ A) ∧ w.Pairwise (· ≤ ·) := by
  intro n A
  induction n, A using sw.induct with
  | case1 A =>
    intro _ w hw
    rw [sw_zero] at hw
    simp only [List.mem_singleton] at hw
    subst hw
    exact ⟨rfl, by simp, by simp⟩
  | case2 n =>
    intro _ w hw
    rw [sw_nil] at hw
    exact absurd hw (by simp)
  | case3 n c A ih1 ih2 =>
    intro hPW w hw
    rw [sw_cons] at hw
    rcases List.mem_append.mp hw with hw1 | hw2
    · rw [List.mem_map] at hw1
      obtain ⟨w0, hw0, rfl⟩ := hw1
      obtain ⟨hlen, hmem, hpw⟩ := ih1 hPW w0 hw0
      refine ⟨by simp [hlen], ?_, ?_⟩
      · intro d hd
        rcases List.mem_cons.mp hd with rfl | hd2
        · simp
        · exact hmem d hd2
      · rw [List.pairwise_cons]
        refine ⟨?_, hpw⟩
        intro d hd
        rcases List.mem_cons.mp (hmem d hd) with rfl | hd2
        · exact le_refl _
        · exact (List.pairwise_cons.mp hPW).1 d hd2
    · obtain ⟨hlen, hmem, hpw⟩ := ih2 hPW.of_cons w hw2
      exact ⟨hlen, fun d hd => List.mem_cons_of_mem c (hmem d hd), hpw⟩

theorem sw_complete (A : List Char) (hA : A.Nodup) (w : List Char)
    (hw : ∀ c ∈ w, c ∈ A) :
    ∃ t ∈ sw w.length A, t.Perm w := by
  have hwa : w ∈ awc A w.length := ((mem_awc A w.length w).mpr ⟨rfl, hw⟩)
  obtain ⟨t, ht, hkt⟩ := foK_covers sortKey (awc A w.length) [] w hwa (by simp)
  refine ⟨t, ?_, sortKey_eq_iff.mp hkt⟩
  rw [← foK_awc (w.length + A.length) w.length A (le_refl _) hA]
  exact ht


theorem njet_canon (k : Nat) :
    njet Xxy Uu k = (sw k ['x','y']).map (fun w => 'u' :: w) := by
  have h := njetChar ['x','y'] ['u'] k (by decide) (by decide) (by decide)
  have hX : Xxy = (['x','y'] : List Char).map (fun c => [c]) := by rfl
  have hU : Uu = (['u'] : List Char).map (fun c => [c]) := by rfl
  rw [hX, hU, h]
  simp

theorem mem_LnXY (n : Nat) (s : Str) :
    s ∈ LnXY n ↔ ∃ k, k ≤ n ∧ ∃ w ∈ sw k ['x','y'], s = 'u' :: w := by
  constructor
  · intro hs
    rcases List.mem_append.mp hs with h | h
    · refine ⟨0, Nat.zero_le n, [], ?_, ?_⟩
      · rw [sw_zero]; simp
      · have : s = ['u'] := by simpa [Uu] using h
        simpa using this
    · rw [List.mem_flatMap] at h
      obtain ⟨k, hk, hs2⟩ := h
      rw [njet_canon, List.mem_map] at hs2
      obtain ⟨w, hw, rfl⟩ := hs2
      exact ⟨k+1, by have := List.mem_range.mp hk; omega, w, hw, rfl⟩
  · rintro ⟨k, hk, w, hw, rfl⟩
    rcases k with _ | k'
    · rw [sw_zero] at hw
      simp only [List.mem_singleton] at hw
      subst hw
      exact List.mem_append_left _ (by simp [Uu])
    · refine List.mem_append_right _ ?_
      rw [List.mem_flatMap]
      refine ⟨k', List.mem_range.mpr (by omega), ?_⟩
      rw [njet_canon, List.mem_map]
      exact ⟨w, hw, rfl⟩

theorem canon_sortKey_fix (k : Nat) (w : List Char) (hw : w ∈ sw k ['x','y']) :
    sortKey ('u' :: w) = 'u' :: w := by
  obtain ⟨-, hmem, hpw⟩ := sw_spec k ['x','y'] (by decide) w hw
  have hs : List.Sorted (· ≤ ·) ('u' :: w) := by
    rw [List.sorted_cons]
    refine ⟨?_, hpw⟩
    intro d hd
    rcases (by simpa using hmem d hd : d = 'x' ∨ d = 'y') with rfl | rfl <;> decide
  exact hs.insertionSort_eq

theorem find?_eq_of_unique (p : Str → Bool) :
    ∀ (L : List Str) (a : Str), a ∈ L → p a = true →
      (∀ b ∈ L, p b = true → b = a) → L.find? p = some a := by
  intro L
  induction L with
  | nil =>
    intro a ha
    exact absurd ha (by simp)
  | cons x L ih =>
    intro a ha hpa huniq
    rw [List.find?_cons]
    by_cases hx : p x = true
    · rw [hx]
      rw [huniq x (by simp) hx]
    · rw [Bool.eq_false_iff.mpr hx]
      rcases List.mem_cons.mp ha with rfl | ha2
      · exact absurd hpa hx
      · exact ih a ha2 hpa (fun b hb hpb => huniq b (List.mem_cons_of_mem x hb) hpb)

theorem uJalpha_canon (w : List Char) (hw : ∀ d ∈ w, d ∈ (['x','y'] : List Char))
    (c : Char) (hc : c ∈ (['x','y'] : List Char)) :
    ∃ t ∈ sw (w.length + 1) ['x','y'], t.Perm (w ++ [c]) ∧
      sortKey (('u' :: w) ++ [c]) = 'u' :: t ∧
      uJalpha ('u' :: w) [c] Xxy Uu = some ('u' :: t) := by
  obtain ⟨t, ht, hperm⟩ := sw_complete ['x','y'] (by decide) (w ++ [c]) (by
    intro d hd
    rcases List.mem_append.mp hd with h | h
    · exact hw d h
    · rw [List.mem_singleton] at h
      subst h
      exact hc)
  have hlen : (w ++ [c]).length = w.length + 1 := by simp
  rw [hlen] at ht
  have hfix : sortKey ('u' :: t) = 'u' :: t := canon_sortKey_fix _ t ht
  have hkey : sortKey (('u' :: w) ++ [c]) = 'u' :: t := by
    have hperm2 : (('u' :: w) ++ [c]).Perm ('u' :: t) := by
      have h1 : ('u' :: w) ++ [c] = 'u' :: (w ++ [c]) := by rfl
      rw [h1]
      exact List.Perm.cons 'u' hperm.symm
    calc sortKey (('u' :: w) ++ [c]) = sortKey ('u' :: t) := sortKey_eq_iff.mpr hperm2
      _ = 'u' :: t := hfix
  refine ⟨t, ht, hperm, hkey, ?_⟩
  rw [uJalpha]
  have hlen2 : ('u' :: w).length = w.length + 1 := by rfl
  rw [hlen2, njet_canon]
  refine find?_eq_of_unique _ _ ('u' :: t) ?_ ?_ ?_
  · rw [List.mem_map]
    exact ⟨t, ht, rfl⟩
  · rw [decide_eq_true_eq, hkey, hfix]
  · intro b hb hpb
    rw [List.mem_map] at hb
    obtain ⟨t2, ht2, rfl⟩ := hb
    rw [decide_eq_true_eq, hkey, canon_sortKey_fix _ t2 ht2] at hpb
    exact hpb.symm


theorem LnXY_nodup (n : Nat) : (LnXY n).Nodup := by
  have hblocks : ((List.range n).flatMap (fun k => njet Xxy Uu (k+1))).Nodup := by
    rw [List.nodup_flatMap]
    constructor
    · intro k _
      rw [njet_canon]
      exact (sw_nodup ['x','y'] (by decide) (k+1)).map
        (fun a b h => List.tail_eq_of_cons_eq h)
    · refine List.Pairwise.imp ?_ (List.nodup_range n)
      intro k k' hkk s hs hs'
      simp only [njet_canon, List.mem_map] at hs hs'
      obtain ⟨w, hw, rfl⟩ := hs
      obtain ⟨w', hw', heq⟩ := hs'
      obtain ⟨hl, -, -⟩ := sw_spec (k+1) ['x','y'] (by decide) w hw
      obtain ⟨hl', -, -⟩ := sw_spec (k'+1) ['x','y'] (by decide) w' hw'
      have : w' = w := List.tail_eq_of_cons_eq heq
      subst this
      exact hkk (by omega)
  show (['u'] :: (List.range n).flatMap (fun k => njet Xxy Uu (k+1))).Nodup
  rw [List.nodup_cons]
  refine ⟨?_, hblocks⟩
  intro hmem
  rw [List.mem_flatMap] at hmem
  obtain ⟨k, -, hs⟩ := hmem
  rw [njet_canon, List.mem_map] at hs
  obtain ⟨w, hw, heq⟩ := hs
  obtain ⟨hl, -, -⟩ := sw_spec (k+1) ['x','y'] (by decide) w hw
  have : w = [] := List.tail_eq_of_cons_eq heq
  subst this
  simp at hl

theorem LnXY_shape (n : Nat) (s : Str) (hs : s ∈ LnXY n) :
    ∃ k ≤ n, ∃ w, s = 'u' :: w ∧ w.length = k ∧ ∀ d ∈ w, d ∈ (['x','y'] : List Char) := by
  obtain ⟨k, hk, w, hw, rfl⟩ := (mem_LnXY n s).mp hs
  obtain ⟨hl, hmem, -⟩ := sw_spec k ['x','y'] (by decide) w hw
  exact ⟨k, hk, w, rfl, hl, hmem⟩

theorem rK_length (c : Char) (s : Str) : (rK c s).length = s.length + 1 := by
  rw [rK, sortKey]
  rw [List.length_insertionSort]
  simp

theorem LnXY_mem_length (n : Nat) (s : Str) (hs : s ∈ LnXY n) :
    1 ≤ s.length ∧ s.length ≤ n + 1 := by
  obtain ⟨k, hk, w, rfl, hl, -⟩ := LnXY_shape n s hs
  simp only [List.length_cons, hl]
  omega

theorem LnXY_closure (n : Nat) (s : Str) (hs : s ∈ LnXY n) (hlen : s.length ≤ n)
    (c : Char) (hc : c ∈ (['x','y'] : List Char)) : rK c s ∈ LnXY n := by
  obtain ⟨k, hk, w, rfl, hl, hmem⟩ := LnXY_shape n s hs
  obtain ⟨t, ht, -, hkey, -⟩ := uJalpha_canon w hmem c hc
  rw [rK, hkey]
  rw [mem_LnXY]
  refine ⟨w.length + 1, ?_, t, ht, rfl⟩
  simp only [List.length_cons, hl] at hlen
  omega

theorem LnXY_top (n : Nat) (s : Str) (hlen : s.length = n + 1) (c : Char) :
    ¬ rK c s ∈ LnXY n := by
  intro hmem
  have h := (LnXY_mem_length n _ hmem).2
  rw [rK_length, hlen] at h
  omega

theorem filter_fulljet_xy (n : Nat) :
    (fulljet Xxy Uu n).filter (fun v => ¬ v ∈ Xxy) = LnXY n := by
  have hjets : ∀ s ∈ (List.range n).flatMap (fun k => njet Xxy Uu (k+1)), ¬ s ∈ Xxy := by
    intro s hs hsX
    rw [List.mem_flatMap] at hs
    obtain ⟨k, -, hs2⟩ := hs
    rw [njet_canon, List.mem_map] at hs2
    obtain ⟨w, -, rfl⟩ := hs2
    rcases (by simpa [Xxy] using hsX : 'u' :: w = ['x'] ∨ 'u' :: w = ['y']) with h | h <;>
      exact absurd (List.head_eq_of_cons_eq h) (by decide)
  show (Xxy ++ Uu ++ (List.range n).flatMap (fun i => njet Xxy Uu (i+1))).filter
      (fun v => ¬ v ∈ Xxy) = LnXY n
  rw [List.filter_append, List.filter_append]
  rw [List.filter_eq_nil_iff.mpr (by intro a ha; simpa using ha),
    List.filter_eq_self.mpr (by intro a ha; simpa using (by decide : ¬ (['u'] : Str) ∈ Xxy).imp (fun h => (by simpa [Uu] using ha : a = ['u']) ▸ h)),
    List.filter_eq_self.mpr (by intro a ha; simpa using hjets a ha)]
  simp [LnXY]

theorem foldlM_res_pure (c : Char) (P : Expr) :
    ∀ (L : List Str), (∀ s ∈ L, uJalpha s [c] Xxy Uu = some (rK c s)) →
    ∀ (acc : Expr),
      L.foldlM (fun expr s => do
          let rr ← uJalpha s [c] Xxy Uu
          pure (Expr.add expr (.mul (diff P s) (.sym rr)))) acc
        = some (L.foldl (fun e s => .add e (.mul (diff P s) (.sym (rK c s)))) acc) := by
  intro L
  induction L with
  | nil =>
    intro _ acc
    rfl
  | cons s L ih =>
    intro hres acc
    rw [List.foldlM_cons]
    have h1 := hres s (by simp)
    rw [h1]
    exact ih (fun t ht => hres t (by simp [ht]))
      (Expr.add acc (.mul (diff P s) (.sym (rK c s))))

theorem totDiv_syn (P : Expr) (n : Nat) (i : Nat) (c : Char)
    (hi : Xxy.get? i = some [c]) (hc : c ∈ (['x','y'] : List Char)) :
    totDiv Xxy Uu P i n
      = some ((LnXY n).foldl (fun e s => .add e (.mul (diff P s) (.sym (rK c s))))
          (diff P [c])) := by
  have hres : ∀ s ∈ LnXY n, uJalpha s [c] Xxy Uu = some (rK c s) := by
    intro s hs
    obtain ⟨k, hk, w, rfl, hl, hmem⟩ := LnXY_shape n s hs
    obtain ⟨t, ht, -, hkey, hu⟩ := uJalpha_canon w hmem c hc
    rw [hu, rK, hkey]
  rw [show totDiv Xxy Uu P i n = ((fulljet Xxy Uu n).filter (fun v => ¬ v ∈ Xxy)).foldlM
      (fun expr s => do
        let rr ← uJalpha s [c] Xxy Uu
        pure (Expr.add expr (.mul (diff P s) (.sym rr)))) (diff P [c]) from by
    unfold totDiv
    rw [hi]
    rfl]
  rw [filter_fulljet_xy n]
  exact foldlM_res_pure c P (LnXY n) hres (diff P [c])

theorem eval_foldl_sum (P : Expr) (r : Str → Str) (ρ : Str → Int) :
    ∀ (L : List Str) (acc : Expr),
      eval ρ (L.foldl (fun e s => .add e (.mul (diff P s) (.sym (r s)))) acc)
        = eval ρ acc + (L.map (fun s => eval ρ (diff P s) * ρ (r s))).sum := by
  intro L
  induction L with
  | nil =>
    intro acc
    simp
  | cons s L ih =>
    intro acc
    rw [List.foldl_cons, ih, List.map_cons, List.sum_cons]
    simp only [eval]
    ring

theorem eval_diff_foldl (P : Expr) (r : Str → Str) (ρ : Str → Int) (z : Str) :
    ∀ (L : List Str) (acc : Expr),
      eval ρ (diff (L.foldl (fun e s => .add e (.mul (diff P s) (.sym (r s)))) acc) z)
        = eval ρ (diff acc z)
          + (L.map (fun s => eval ρ (diff (diff P s) z) * ρ (r s)
              + eval ρ (diff P s) * (if r s = z then (1:Int) else 0))).sum := by
  intro L
  induction L with
  | nil =>
    intro acc
    simp
  | cons s L ih =>
    intro acc
    rw [List.foldl_cons, ih, List.map_cons, List.sum_cons]
    simp only [diff, eval]
    by_cases hrz : r s = z
    · rw [if_pos hrz, if_pos hrz]
      simp only [eval]
      ring
    · rw [if_neg hrz, if_neg hrz]
      simp only [eval]
      ring


theorem eval_diff_comm (x y : Str) (ρ : Str → Int) :
    ∀ (P : Expr), eval ρ (diff (diff P x) y) = eval ρ (diff (diff P y) x) := by
  intro P
  induction P with
  | const n => rfl
  | sym t =>
    simp only [diff]
    split <;> split <;> rfl
  | add a b iha ihb =>
    simp only [diff, eval, iha, ihb]
  | sub a b iha ihb =>
    simp only [diff, eval, iha, ihb]
  | mul a b iha ihb =>
    simp only [diff, eval]
    rw [iha, ihb]
    ring

theorem rK_comm (c0 c1 : Char) (s : Str) : rK c1 (rK c0 s) = rK c0 (rK c1 s) := by
  simp only [rK]
  refine sortKey_eq_iff.mpr ?_
  have h0 : (sortKey (s ++ [c0]) ++ [c1]).Perm ((s ++ [c0]) ++ [c1]) :=
    (List.perm_insertionSort (· ≤ ·) (s ++ [c0])).append_right [c1]
  have h1 : (sortKey (s ++ [c1]) ++ [c0]).Perm ((s ++ [c1]) ++ [c0]) :=
    (List.perm_insertionSort (· ≤ ·) (s ++ [c1])).append_right [c0]
  refine h0.trans (List.Perm.trans ?_ h1.symm)
  rw [List.append_assoc, List.append_assoc]
  refine List.Perm.append_left s ?_
  exact List.Perm.swap c1 c0 []

theorem wf_top_zero (P : Expr) (m n : Nat) (hwf : wfXY m P) (hn : m + 2 ≤ n)
    (s : Str) (hlen : s.length = n + 1) (ρ : Str → Int) :
    eval ρ (diff P s) = 0 := by
  refine diff_eval_zero s ρ P ?_
  intro hmem
  rcases hwf s hmem with h | h
  · have : s.length = 1 := by
      rcases (by simpa [Xxy] using h : s = ['x'] ∨ s = ['y']) with rfl | rfl <;> rfl
    omega
  · have := (LnXY_mem_length m s h).2
    omega

theorem TD2_eval (P : Expr) (n : Nat) (i0 i1 : Nat) (c0 c1 : Char)
    (h0 : Xxy.get? i0 = some [c0]) (h1 : Xxy.get? i1 = some [c1])
    (hc0 : c0 ∈ (['x','y'] : List Char)) (hc1 : c1 ∈ (['x','y'] : List Char)) :
    ∃ E, TotDiv Xxy Uu P n [i0, i1] = some E ∧
      ∀ ρ : Str → Int, eval ρ E =
        (eval ρ (diff (diff P [c0]) [c1])
          + ((LnXY n).map (fun s => eval ρ (diff (diff P s) [c1]) * ρ (rK c0 s)
              + eval ρ (diff P s) * (if rK c0 s = [c1] then (1:Int) else 0))).sum)
        + ((LnXY n).map (fun t =>
            (eval ρ (diff (diff P [c0]) t)
              + ((LnXY n).map (fun s => eval ρ (diff (diff P s) t) * ρ (rK c0 s)
                  + eval ρ (diff P s) * (if rK c0 s = t then (1:Int) else 0))).sum)
            * ρ (rK c1 t))).sum := by
  refine ⟨((LnXY n).foldl (fun e s => .add e (.mul
      (diff ((LnXY n).foldl (fun e s => .add e (.mul (diff P s) (.sym (rK c0 s))))
        (diff P [c0])) s) (.sym (rK c1 s))))
      (diff ((LnXY n).foldl (fun e s => .add e (.mul (diff P s) (.sym (rK c0 s))))
        (diff P [c0])) [c1])), ?_, ?_⟩
  · have hstep : TotDiv Xxy Uu P n [i0, i1]
        = (totDiv Xxy Uu P i0 n).bind (fun e => totDiv Xxy Uu e i1 n) := rfl
    rw [hstep, totDiv_syn P n i0 c0 h0 hc0]
    exact totDiv_syn ((LnXY n).foldl (fun e s => .add e (.mul (diff P s) (.sym (rK c0 s))))
      (diff P [c0])) n i1 c1 h1 hc1
  · intro ρ
    rw [eval_foldl_sum ((LnXY n).foldl (fun e s => .add e (.mul (diff P s) (.sym (rK c0 s))))
      (diff P [c0])) (rK c1) ρ (LnXY n)]
    have hd : ∀ z, eval ρ (diff ((LnXY n).foldl
        (fun e s => .add e (.mul (diff P s) (.sym (rK c0 s)))) (diff P [c0])) z)
      = eval ρ (diff (diff P [c0]) z)
        + ((LnXY n).map (fun s => eval ρ (diff (diff P s) z) * ρ (rK c0 s)
            + eval ρ (diff P s) * (if rK c0 s = z then (1:Int) else 0))).sum :=
      fun z => eval_diff_foldl P (rK c0) ρ z (LnXY n) (diff P [c0])
    rw [hd [c1]]
    refine congrArg₂ (fun a b => a + b) rfl ?_
    exact congrArg List.sum (List.map_congr_left (fun t _ => by rw [hd t]))


theorem TD2_canon (P : Expr) (n : Nat) (c0 c1 : Char) (ρ : Str → Int) :
    (eval ρ (diff (diff P [c0]) [c1])
      + ((LnXY n).map (fun s => eval ρ (diff (diff P s) [c1]) * ρ (rK c0 s)
          + eval ρ (diff P s) * (if rK c0 s = [c1] then (1:Int) else 0))).sum)
    + ((LnXY n).map (fun t =>
        (eval ρ (diff (diff P [c0]) t)
          + ((LnXY n).map (fun s => eval ρ (diff (diff P s) t) * ρ (rK c0 s)
              + eval ρ (diff P s) * (if rK c0 s = t then (1:Int) else 0))).sum)
        * ρ (rK c1 t))).sum
    = eval ρ (diff (diff P [c0]) [c1])
      + ((LnXY n).map (fun s => eval ρ (diff (diff P s) [c1]) * ρ (rK c0 s))).sum
      + ((LnXY n).map (fun t => eval ρ (diff (diff P [c0]) t) * ρ (rK c1 t))).sum
      + ((LnXY n).map (fun s => ((LnXY n).map (fun t =>
          eval ρ (diff (diff P s) t) * ρ (rK c0 s) * ρ (rK c1 t))).sum)).sum
      + ((LnXY n).map (fun s => eval ρ (diff P s)
          * (if rK c0 s ∈ LnXY n then ρ (rK c1 (rK c0 s)) else 0))).sum := by
  have hA : ((LnXY n).map (fun s => eval ρ (diff (diff P s) [c1]) * ρ (rK c0 s)
      + eval ρ (diff P s) * (if rK c0 s = [c1] then (1:Int) else 0))).sum
      = ((LnXY n).map (fun s => eval ρ (diff (diff P s) [c1]) * ρ (rK c0 s))).sum := by
    refine congrArg List.sum (List.map_congr_left ?_)
    intro s hs
    have hne : ¬ rK c0 s = [c1] := by
      intro he
      have h1 := congrArg List.length he
      rw [rK_length] at h1
      have h2 := (LnXY_mem_length n s hs).1
      simp only [List.length_singleton] at h1
      omega
    rw [if_neg hne]
    ring
  have hB : ∀ t, (eval ρ (diff (diff P [c0]) t)
      + ((LnXY n).map (fun s => eval ρ (diff (diff P s) t) * ρ (rK c0 s)
          + eval ρ (diff P s) * (if rK c0 s = t then (1:Int) else 0))).sum) * ρ (rK c1 t)
      = eval ρ (diff (diff P [c0]) t) * ρ (rK c1 t)
        + (((LnXY n).map (fun s =>
            eval ρ (diff (diff P s) t) * ρ (rK c0 s) * ρ (rK c1 t))).sum
          + ((LnXY n).map (fun s =>
            eval ρ (diff P s) * (if rK c0 s = t then (1:Int) else 0) * ρ (rK c1 t))).sum) := by
    intro t
    rw [ilsum_add (LnXY n) (fun s => eval ρ (diff (diff P s) t) * ρ (rK c0 s))
      (fun s => eval ρ (diff P s) * (if rK c0 s = t then (1:Int) else 0))]
    rw [List.sum_map_mul_right, List.sum_map_mul_right]
    ring
  have hBmap : ((LnXY n).map (fun t =>
      (eval ρ (diff (diff P [c0]) t)
        + ((LnXY n).map (fun s => eval ρ (diff (diff P s) t) * ρ (rK c0 s)
            + eval ρ (diff P s) * (if rK c0 s = t then (1:Int) else 0))).sum)
      * ρ (rK c1 t))).sum
      = ((LnXY n).map (fun t =>
          eval ρ (diff (diff P [c0]) t) * ρ (rK c1 t)
          + (((LnXY n).map (fun s =>
              eval ρ (diff (diff P s) t) * ρ (rK c0 s) * ρ (rK c1 t))).sum
            + ((LnXY n).map (fun s =>
              eval ρ (diff P s) * (if rK c0 s = t then (1:Int) else 0) * ρ (rK c1 t))).sum))).sum :=
    congrArg List.sum (List.map_congr_left (fun t _ => hB t))
  rw [hA, hBmap]
  rw [ilsum_add (LnXY n) (fun t => eval ρ (diff (diff P [c0]) t) * ρ (rK c1 t))
    (fun t => ((LnXY n).map (fun s =>
        eval ρ (diff (diff P s) t) * ρ (rK c0 s) * ρ (rK c1 t))).sum
      + ((LnXY n).map (fun s =>
        eval ρ (diff P s) * (if rK c0 s = t then (1:Int) else 0) * ρ (rK c1 t))).sum)]
  rw [ilsum_add (LnXY n) (fun t => ((LnXY n).map (fun s =>
      eval ρ (diff (diff P s) t) * ρ (rK c0 s) * ρ (rK c1 t))).sum)
    (fun t => ((LnXY n).map (fun s =>
      eval ρ (diff P s) * (if rK c0 s = t then (1:Int) else 0) * ρ (rK c1 t))).sum)]
  rw [ilsum_comm (LnXY n) (LnXY n)
    (fun t s => eval ρ (diff (diff P s) t) * ρ (rK c0 s) * ρ (rK c1 t))]
  rw [ilsum_comm (LnXY n) (LnXY n)
    (fun t s => eval ρ (diff P s) * (if rK c0 s = t then (1:Int) else 0) * ρ (rK c1 t))]
  have hdel : ((LnXY n).map (fun s => ((LnXY n).map (fun t =>
      eval ρ (diff P s) * (if rK c0 s = t then (1:Int) else 0) * ρ (rK c1 t))).sum)).sum
      = ((LnXY n).map (fun s => eval ρ (diff P s)
          * (if rK c0 s ∈ LnXY n then ρ (rK c1 (rK c0 s)) else 0))).sum := by
    refine congrArg List.sum (List.map_congr_left ?_)
    intro s _
    have h1 : ((LnXY n).map (fun t =>
        eval ρ (diff P s) * (if rK c0 s = t then (1:Int) else 0) * ρ (rK c1 t))).sum
        = ((LnXY n).map (fun t =>
          eval ρ (diff P s) * ((if rK c0 s = t then (1:Int) else 0) * ρ (rK c1 t)))).sum :=
      congrArg List.sum (List.map_congr_left (fun t _ => by ring))
    rw [h1, List.sum_map_mul_left,
      ilsum_delta (rK c0 s) (fun t => ρ (rK c1 t)) (LnXY n) (LnXY_nodup n)]
  rw [hdel]
  ring


theorem TD2_comm (P : Expr) (m n : Nat) (hwf : wfXY m P) (hn : m + 2 ≤ n)
    (c0 c1 : Char) (hc0 : c0 ∈ (['x','y'] : List Char)) (hc1 : c1 ∈ (['x','y'] : List Char))
    (ρ : Str → Int) :
    (eval ρ (diff (diff P [c0]) [c1])
      + ((LnXY n).map (fun s => eval ρ (diff (diff P s) [c1]) * ρ (rK c0 s)
          + eval ρ (diff P s) * (if rK c0 s = [c1] then (1:Int) else 0))).sum)
    + ((LnXY n).map (fun t =>
        (eval ρ (diff (diff P [c0]) t)
          + ((LnXY n).map (fun s => eval ρ (diff (diff P s) t) * ρ (rK c0 s)
              + eval ρ (diff P s) * (if rK c0 s = t then (1:Int) else 0))).sum)
        * ρ (rK c1 t))).sum
    = (eval ρ (diff (diff P [c1]) [c0])
      + ((LnXY n).map (fun s => eval ρ (diff (diff P s) [c0]) * ρ (rK c1 s)
          + eval ρ (diff P s) * (if rK c1 s = [c0] then (1:Int) else 0))).sum)
    + ((LnXY n).map (fun t =>
        (eval ρ (diff (diff P [c1]) t)
          + ((LnXY n).map (fun s => eval ρ (diff (diff P s) t) * ρ (rK c1 s)
              + eval ρ (diff P s) * (if rK c1 s = t then (1:Int) else 0))).sum)
        * ρ (rK c0 t))).sum := by
  rw [TD2_canon P n c0 c1 ρ, TD2_canon P n c1 c0 ρ]
  have hg2 : ((LnXY n).map (fun s => eval ρ (diff (diff P s) [c1]) * ρ (rK c0 s))).sum
      = ((LnXY n).map (fun t => eval ρ (diff (diff P [c1]) t) * ρ (rK c0 t))).sum :=
    congrArg List.sum (List.map_congr_left (fun s _ => by rw [eval_diff_comm s [c1] ρ P]))
  have hg3 : ((LnXY n).map (fun t => eval ρ (diff (diff P [c0]) t) * ρ (rK c1 t))).sum
      = ((LnXY n).map (fun s => eval ρ (diff (diff P s) [c0]) * ρ (rK c1 s))).sum :=
    congrArg List.sum (List.map_congr_left (fun t _ => by rw [eval_diff_comm [c0] t ρ P]))
  have hg4 : ((LnXY n).map (fun s => ((LnXY n).map (fun t =>
      eval ρ (diff (diff P s) t) * ρ (rK c0 s) * ρ (rK c1 t))).sum)).sum
      = ((LnXY n).map (fun s => ((LnXY n).map (fun t =>
          eval ρ (diff (diff P s) t) * ρ (rK c1 s) * ρ (rK c0 t))).sum)).sum := by
    rw [ilsum_comm (LnXY n) (LnXY n)
      (fun s t => eval ρ (diff (diff P s) t) * ρ (rK c0 s) * ρ (rK c1 t))]
    refine congrArg List.sum (List.map_congr_left ?_)
    intro b _
    refine congrArg List.sum (List.map_congr_left ?_)
    intro a _
    rw [eval_diff_comm a b ρ P]
    ring
  have hg5 : ((LnXY n).map (fun s => eval ρ (diff P s)
      * (if rK c0 s ∈ LnXY n then ρ (rK c1 (rK c0 s)) else 0))).sum
      = ((LnXY n).map (fun s => eval ρ (diff P s)
          * (if rK c1 s ∈ LnXY n then ρ (rK c0 (rK c1 s)) else 0))).sum := by
    refine congrArg List.sum (List.map_congr_left ?_)
    intro s hs
    have hb := LnXY_mem_length n s hs
    by_cases hsl : s.length ≤ n
    · rw [if_pos (LnXY_closure n s hs hsl c0 hc0), if_pos (LnXY_closure n s hs hsl c1 hc1),
        rK_comm]
    · have hlen : s.length = n + 1 := by omega
      rw [wf_top_zero P m n hwf hn s hlen ρ]
      ring
  rw [hg2, hg3, hg4, hg5, eval_diff_comm [c0] [c1] ρ P]
  ring

/-- C5: for every well-formed expression `P` over the order-m jet space on
`X=['x','y']`, `U=['u']` and every order ceiling `n ≥ m+2`, the composed
total derivatives `TotDiv(X,U,P,n,[0,1])` and `TotDiv(X,U,P,n,[1,0])`
both succeed and return algebraically equal expressions. -/
theorem c5_commutativity (P : Expr) (m n : Nat) (hwf : wfXY m P) (hn : m + 2 ≤ n) :
    ∃ E1 E2, TotDiv Xxy Uu P n [0, 1] = some E1 ∧ TotDiv Xxy Uu P n [1, 0] = some E2 ∧
      algEq E1 E2 := by
  obtain ⟨E1, hE1, hev1⟩ := TD2_eval P n 0 1 'x' 'y' (by rfl) (by rfl) (by decide) (by decide)
  obtain ⟨E2, hE2, hev2⟩ := TD2_eval P n 1 0 'y' 'x' (by rfl) (by rfl) (by decide) (by decide)
  refine ⟨E1, E2, hE1, hE2, ?_⟩
  intro ρ
  rw [hev1 ρ, hev2 ρ]
  exact TD2_comm P m n hwf hn 'x' 'y' (by decide) (by decide) ρ

theorem c5_witness : wfXY 1 (.mul (.sym ['u','x']) (.sym ['x'])) ∧ 1 + 2 ≤ 3 ∧
    ∃ E1 E2, TotDiv Xxy Uu (.mul (.sym ['u','x']) (.sym ['x'])) 3 [0, 1] = some E1 ∧
      TotDiv Xxy Uu (.mul (.sym ['u','x']) (.sym ['x'])) 3 [1, 0] = some E2 ∧
      algEq E1 E2 :=
  ⟨by unfold wfXY; decide, by decide,
    c5_commutativity (.mul (.sym ['u','x']) (.sym ['x'])) 1 3
      (by unfold wfXY; decide) (by decide)⟩

end LieProlong
